import Mathlib

/-!
Verification of the `logmsglint` analyzer core (`pkg/analyzer/analyzer.go`).

The Go code is shallowly embedded: Go strings become `List Char` (Go ranges
over runes, and every slicing done by the analyzer happens at rune
boundaries), the relevant `go/ast` expression shapes become the inductive
`Expr`, and the `go/types` information consulted by the analyzer becomes an
explicit lookup function.  Library calls (`strconv.Unquote`,
`strconv.Quote`, `unicode.IsSpace`, `strings.Fields`, the compiled regular
expressions of the built-in sensitive patterns) are modelled by executable
Lean functions that follow the documented behaviour of those libraries on
the inputs the analyzer feeds them.
-/

namespace LogMsgLint

/-- Go strings, viewed as their sequence of runes. -/
abbrev GoStr := List Char

/-- The apostrophe character (used by the `strconv.Unquote` model). -/
def squote : Char := Char.ofNat 39

/-- The backquote character (used by the `strconv.Unquote` model). -/
def backquote : Char := Char.ofNat 96

/-- Model of Go `unicode.IsSpace`: the Unicode White_Space code points. -/
def goIsSpace (c : Char) : Bool :=
  let n := c.toNat
  n == 9 || n == 10 || n == 11 || n == 12 || n == 13 || n == 32 ||
  n == 0x85 || n == 0xA0 || n == 0x1680 ||
  (decide (0x2000 ≤ n) && decide (n ≤ 0x200A)) ||
  n == 0x2028 || n == 0x2029 || n == 0x202F || n == 0x205F || n == 0x3000

/-- Model of `strings.ToLower` restricted to a single ASCII rune (the
analyzer only lowercases runes in `A`–`Z`). -/
def asciiToLower (c : Char) : Char :=
  if c.toNat ≥ 65 ∧ c.toNat ≤ 90 then Char.ofNat (c.toNat + 32) else c

/-- ASCII upper-casing, used to describe casing variants of keywords. -/
def asciiToUpper (c : Char) : Char :=
  if c.toNat ≥ 97 ∧ c.toNat ≤ 122 then Char.ofNat (c.toNat - 32) else c

/-- Is `c` an ASCII upper-case letter (`r >= 'A' && r <= 'Z'` in Go)? -/
def isAsciiUpper (c : Char) : Bool :=
  decide (65 ≤ c.toNat) && decide (c.toNat ≤ 90)

/-! ### Model of `strconv.Unquote` -/

/-- Hexadecimal digit value. -/
def hexDigit (c : Char) : Option Nat :=
  let n := c.toNat
  if 48 ≤ n ∧ n ≤ 57 then some (n - 48)
  else if 97 ≤ n ∧ n ≤ 102 then some (n - 87)
  else if 65 ≤ n ∧ n ≤ 70 then some (n - 55)
  else none

/-- Parse exactly `k` hexadecimal digits from the front of `s`. -/
def parseHexN : Nat → Nat → List Char → Option Nat
  | 0, acc, _ => some acc
  | _ + 1, _, [] => none
  | k + 1, acc, c :: s => (hexDigit c).bind fun d => parseHexN k (acc * 16 + d) s

/-- Octal digit value. -/
def octDigit (c : Char) : Option Nat :=
  let n := c.toNat
  if 48 ≤ n ∧ n ≤ 55 then some (n - 48) else none

/-- Parse exactly `k` octal digits from the front of `s`. -/
def parseOctN : Nat → Nat → List Char → Option Nat
  | 0, acc, _ => some acc
  | _ + 1, _, [] => none
  | k + 1, acc, c :: s => (octDigit c).bind fun d => parseOctN k (acc * 8 + d) s

/-- A Unicode scalar value as a `Char`, or `none` when out of range
(Go `utf8.ValidRune`). -/
def mkRune (n : Nat) : Option Char :=
  if n < 0xD800 ∨ (0xE000 ≤ n ∧ n < 0x110000) then some (Char.ofNat n) else none

/-- Model of Go `strconv.unquoteChar` on an escape sequence: `rest` is the
text following the backslash; on success returns the decoded rune and the
number of runes of `rest` consumed. -/
def decodeEscape (quote : Char) (rest : List Char) : Option (Char × Nat) :=
  match rest with
  | [] => none
  | e :: _ =>
    if e = 'a' then some (Char.ofNat 7, 1)
    else if e = 'b' then some (Char.ofNat 8, 1)
    else if e = 'f' then some (Char.ofNat 12, 1)
    else if e = 'n' then some ('\n', 1)
    else if e = 'r' then some ('\r', 1)
    else if e = 't' then some ('\t', 1)
    else if e = 'v' then some (Char.ofNat 11, 1)
    else if e = '\\' then some ('\\', 1)
    else if e = '"' ∨ e = squote then
      if e = quote then some (e, 1) else none
    else if e = 'x' then
      -- Go `\xHH` denotes a byte; we model it as that byte's code point.
      (parseHexN 2 0 (rest.drop 1)).bind fun v => (mkRune v).map fun ch => (ch, 3)
    else if e = 'u' then
      (parseHexN 4 0 (rest.drop 1)).bind fun v => (mkRune v).map fun ch => (ch, 5)
    else if e = 'U' then
      (parseHexN 8 0 (rest.drop 1)).bind fun v => (mkRune v).map fun ch => (ch, 9)
    else if (octDigit e).isSome then
      (parseOctN 3 0 rest).bind fun v =>
        if v ≤ 255 then (mkRune v).map fun ch => (ch, 3) else none
    else none

/-- Model of the `strconv.Unquote` loop for an interpreted string body.
Each iteration consumes at least one rune, so running the loop with the
body's length as fuel is exact; the fuel only makes the recursion
structural. -/
def unquoteBody (quote : Char) : Nat → List Char → Option (List Char)
  | _, [] => some []
  | 0, _ :: _ => none
  | fuel + 1, c :: rest =>
    if c = quote then none
    else if c = '\\' then
      match decodeEscape quote rest with
      | none => none
      | some (ch, n) => (unquoteBody quote fuel (rest.drop n)).map (ch :: ·)
    else (unquoteBody quote fuel rest).map (c :: ·)

/-- Model of Go `strconv.Unquote` on a string-literal token's source text. -/
def goUnquote (value : String) : Option GoStr :=
  let s := value.data
  if s.length < 2 then none
  else
    match s with
    | [] => none
    | quote :: rest =>
      let body := rest.dropLast
      if rest.getLast? ≠ some quote then none
      else if quote = backquote then
        if body.contains backquote then none
        else some (body.filter (· ≠ '\r'))
      else if quote = '"' then
        if body.contains '\n' then none else unquoteBody '"' body.length body
      else if quote = squote then
        if body.contains '\n' then none
        else
          match body with
          | [] => none
          | c :: r =>
            if c = squote then none
            else if c = '\\' then
              match decodeEscape squote r with
              | some (ch, n) => if r.drop n = [] then some [ch] else none
              | none => none
            else if r = [] then some [c] else none
      else none

/-! ### The expression model

`Expr` covers the `go/ast` shapes the analyzer distinguishes: basic
literals, binary expressions, parenthesized expressions; every other
expression form (identifiers, calls, selectors, ...) is inert for the
analyzer and is collapsed into the `other` constructor. -/

/-- Token kind of a Go basic literal (`token.STRING` versus the rest). -/
inductive LitKind where
  | string
  | otherKind
deriving DecidableEq, Repr

/-- Binary operator (`token.ADD` versus the rest). -/
inductive BinOp where
  | add
  | otherOp
deriving DecidableEq, Repr

/-- The expression shapes relevant to the analyzer. -/
inductive Expr where
  | basicLit (kind : LitKind) (value : String)
  | binary (op : BinOp) (x y : Expr)
  | paren (x : Expr)
  | other (tag : Nat)
deriving DecidableEq, Repr

/-- Model of `stripParens`. -/
def stripParens : Expr → Expr
  | .paren x => stripParens x
  | e => e

/-- Model of `canRewriteMessageExpr`. -/
def canRewriteMessageExpr (expr : Expr) : Bool :=
  match stripParens expr with
  | .basicLit kind _ => kind = LitKind.string
  | _ => false

/-- The recursive `walk` closure of `extractAllStringLiterals`, with the
accumulated slice made explicit.  The first step of the Go closure strips
parentheses, which the `paren` case reproduces. -/
def extractWalk : Expr → List GoStr → List GoStr
  | .paren x, acc => extractWalk x acc
  | .basicLit kind value, acc =>
    if kind = LitKind.string then
      match goUnquote value with
      | some text => acc ++ [text]
      | none => acc
    else acc
  | .binary op x y, acc =>
    if op = BinOp.add then extractWalk y (extractWalk x acc) else acc
  | .other _, acc => acc

/-- Model of `extractAllStringLiterals`. -/
def extractAllStringLiterals (expr : Expr) : List GoStr :=
  extractWalk expr []

/-- The specification-side description of extraction (`spec.md` §4.3):
the decoded texts of the string-literal leaves reachable through `+`
nodes and parentheses, in left-to-right order, undecodable leaves and all
other node shapes contributing nothing. -/
def specLiteralLeaves : Expr → List GoStr
  | .paren x => specLiteralLeaves x
  | .basicLit kind value =>
    if kind = LitKind.string then (goUnquote value).toList else []
  | .binary op x y =>
    if op = BinOp.add then specLiteralLeaves x ++ specLiteralLeaves y else []
  | .other _ => []

theorem extractWalk_eq (e : Expr) (acc : List GoStr) :
    extractWalk e acc = acc ++ specLiteralLeaves e := by
  induction e generalizing acc with
  | basicLit kind value =>
    by_cases h : kind = LitKind.string
    · subst h
      cases hq : goUnquote value <;> simp [extractWalk, specLiteralLeaves, hq]
    · simp [extractWalk, specLiteralLeaves, h]
  | binary op x y ihx ihy =>
    by_cases h : op = BinOp.add
    · subst h
      simp [extractWalk, specLiteralLeaves, ihx, ihy]
    · simp [extractWalk, specLiteralLeaves, h]
  | paren x ih => simpa [extractWalk, specLiteralLeaves] using ih acc
  | other tag => simp [extractWalk, specLiteralLeaves]

theorem extractAllStringLiterals_eq (e : Expr) :
    extractAllStringLiterals e = specLiteralLeaves e := by
  simpa [extractAllStringLiterals] using extractWalk_eq e []

/-! ### Call-site resolution (`extractMessageExpr`, `messageArgIndex`)

`calledFunction` consults the pass's type information to resolve the call
target; we model its result directly as the `fn` field of a call, and the
`Types` table (used by `isStringExpr`) as a lookup function on
expressions. -/

/-- The resolved identity of a called function: its declaring package path
(`fn.Pkg()` may be nil, hence the `Option`) and its name. -/
structure GoFunc where
  pkgPath : Option String
  name : String
deriving DecidableEq, Repr

/-- The underlying type of a resolved expression type: a `*types.Basic`
with its `Info` bit set, or anything else. -/
inductive GoUnderlying where
  | basic (info : Nat)
  | nonBasic
deriving DecidableEq, Repr

/-- A resolved static type, keeping only what `isStringExpr` looks at. -/
structure GoType where
  underlying : GoUnderlying
deriving DecidableEq, Repr

/-- The `types.IsString` flag bit of `types.BasicInfo`. -/
def typesIsString : Nat := 32

/-- The slice of a pass's `TypesInfo` that the analyzer reads: the static
type of each expression, when known. -/
structure TypeTable where
  types : Expr → Option GoType

/-- A call expression: the target resolved by `calledFunction` (through the
`Selections`/`Uses` tables), and the argument list. -/
structure CallExpr where
  fn : Option GoFunc
  args : List Expr

/-- The `slogMessageIndexes` table. -/
def slogMessageIndexes : List (String × Nat) :=
  [("Debug", 0), ("Info", 0), ("Warn", 0), ("Error", 0),
   ("DebugContext", 1), ("InfoContext", 1), ("WarnContext", 1), ("ErrorContext", 1),
   ("Log", 2), ("LogAttrs", 2)]

/-- The `zapMessageFirstMethods` set. -/
def zapMessageFirstMethods : List String :=
  ["Debug", "Info", "Warn", "Error", "DPanic", "Panic", "Fatal",
   "Debugf", "Infof", "Warnf", "Errorf", "DPanicf", "Panicf", "Fatalf",
   "Debugw", "Infow", "Warnw", "Errorw", "DPanicw", "Panicw", "Fatalw"]

/-- Model of `messageArgIndex`; the Go `(int, bool)` pair becomes an
`Option Nat`. -/
def messageArgIndex (pkgPath fnName : String) : Option Nat :=
  if pkgPath = "log/slog" then
    slogMessageIndexes.lookup fnName
  else if pkgPath = "go.uber.org/zap" then
    if fnName = "Log" then some 1
    else if zapMessageFirstMethods.contains fnName then some 0
    else none
  else none

/-- Model of `isStringExpr`. -/
def isStringExpr (info : TypeTable) (expr : Expr) : Bool :=
  match info.types (stripParens expr) with
  | none => false
  | some tv =>
    match tv.underlying with
    | .basic basicInfo => basicInfo &&& typesIsString ≠ 0
    | .nonBasic => false

/-- Model of `extractMessageExpr`. -/
def extractMessageExpr (info : TypeTable) (call : CallExpr) : Option Expr :=
  match call.fn with
  | none => none
  | some fn =>
    match fn.pkgPath with
    | none => none
    | some pkgPath =>
      match messageArgIndex pkgPath fn.name with
      | none => none
      | some msgIndex =>
        if msgIndex ≥ call.args.length then none
        else
          match call.args[msgIndex]? with
          | none => none
          | some expr => if isStringExpr info expr then some expr else none

/-! ### The text rules -/

/-- Model of `firstVisibleRune`: the position (in runes) and value of the
first rune that is not white space.  The Go original also returns the
rune's byte width, used only to slice at that rune's boundaries; in the
rune-sequence model the position alone carries that information. -/
def firstVisibleRune (text : GoStr) : Option (Nat × Char) :=
  go 0 text
where
  go : Nat → GoStr → Option (Nat × Char)
    | _, [] => none
    | idx, c :: rest => if goIsSpace c then go (idx + 1) rest else some (idx, c)

/-- Model of `violatesLowercaseRule`. -/
def violatesLowercaseRule (text : GoStr) : Bool × GoStr :=
  match firstVisibleRune text with
  | none => (false, [])
  | some (idx, r) =>
    if isAsciiUpper r then
      (true, text.take idx ++ [asciiToLower r] ++ text.drop (idx + 1))
    else (false, [])

/-- Model of `unicode.IsLetter` restricted to the principal letter ranges
(ASCII and Latin-1 letters, Latin extended, Greek, Cyrillic, CJK, kana). -/
def goIsLetter (c : Char) : Bool :=
  let n := c.toNat
  c.isAlpha ||
  (decide (0xC0 ≤ n) && decide (n ≤ 0xFF) && n != 0xD7 && n != 0xF7) ||
  (decide (0x100 ≤ n) && decide (n ≤ 0x24F)) ||
  (decide (0x370 ≤ n) && decide (n ≤ 0x3FF) && n != 0x3A2) ||
  (decide (0x400 ≤ n) && decide (n ≤ 0x4FF)) ||
  (decide (0x3040 ≤ n) && decide (n ≤ 0x30FF)) ||
  (decide (0x4E00 ≤ n) && decide (n ≤ 0x9FFF))

/-- Model of `unicode.In(r, unicode.Latin)` on the same ranges: ASCII
letters, Latin-1 letters and the Latin extended blocks. -/
def inLatinScript (c : Char) : Bool :=
  let n := c.toNat
  c.isAlpha ||
  (decide (0xC0 ≤ n) && decide (n ≤ 0xFF) && n != 0xD7 && n != 0xF7) ||
  (decide (0x100 ≤ n) && decide (n ≤ 0x24F))

/-- Model of `containsNonEnglishLetters`. -/
def containsNonEnglishLetters (text : GoStr) : Bool :=
  text.any fun r => goIsLetter r && !inLatinScript r

/-- Model of `isForbiddenPunctuation`. -/
def isForbiddenPunctuation (r : Char) : Bool :=
  r = '!' || r = '?' || r = '…'

/-- Model of `isEmojiRune`. -/
def isEmojiRune (r : Char) : Bool :=
  let n := r.toNat
  (decide (0x1F300 ≤ n) && decide (n ≤ 0x1FAFF)) ||
  (decide (0x2600 ≤ n) && decide (n ≤ 0x27BF)) ||
  n == 0xFE0F

/-- Model of `strings.Contains(text, "...")`. -/
def containsTripleDot : GoStr → Bool
  | [] => false
  | c :: rest => (c = '.' && rest.take 2 = ['.', '.']) || containsTripleDot rest

/-- Model of `strings.ReplaceAll(text, "...", "")`: remove successive
leftmost non-overlapping occurrences of three dots. -/
def replaceTripleDot : GoStr → GoStr
  | [] => []
  | '.' :: '.' :: '.' :: rest => replaceTripleDot rest
  | c :: rest => c :: replaceTripleDot rest

/-- Model of `containsSpecialSymbolsOrEmoji`. -/
def containsSpecialSymbolsOrEmoji (text : GoStr) : Bool :=
  containsTripleDot text ||
  text.any fun r => isForbiddenPunctuation r || isEmojiRune r

/-- Model of `strings.TrimSpace`. -/
def goTrimSpace (text : GoStr) : GoStr :=
  (text.dropWhile goIsSpace).rdropWhile goIsSpace

/-- Model of `strings.Fields`: the maximal runs of non-space runes.  Each
step consumes at least one rune, so the text's length as fuel is exact;
the fuel only makes the recursion structural. -/
def goFields : Nat → GoStr → List GoStr
  | _, [] => []
  | 0, _ :: _ => []
  | fuel + 1, c :: rest =>
    if goIsSpace c then goFields fuel rest
    else (c :: rest.takeWhile (fun x => !goIsSpace x)) ::
      goFields fuel (rest.dropWhile (fun x => !goIsSpace x))

/-- Model of `strings.Join(strs, " ")`. -/
def goJoinSpace : List GoStr → GoStr
  | [] => []
  | [w] => w
  | w :: ws => w ++ ' ' :: goJoinSpace ws

/-- Model of `stripSpecialSymbolsAndEmoji`: drop literal `...` runs, drop
forbidden punctuation and emoji runes, then
`strings.Join(strings.Fields(strings.TrimSpace(...)), " ")`. -/
def stripSpecialSymbolsAndEmoji (text : GoStr) : GoStr :=
  let afterDots := replaceTripleDot text
  let kept := afterDots.filter fun r => !(isForbiddenPunctuation r || isEmojiRune r)
  let trimmed := goTrimSpace kept
  goJoinSpace (goFields trimmed.length trimmed)

/-! ### Sensitive patterns

`defaultSensitivePatterns` holds seven regular expressions, each of the
form `(?i)\bWORD\b` where `WORD` is a literal keyword, possibly with an
optional `[_-]` separator in the middle (`api[_-]?key`, `access[_-]?key`).
The compiled form is modelled by `KeywordPattern`, whose matching follows
Go `regexp` semantics on exactly these pattern shapes: ASCII-case-folded
literal matching, `\b` as the ASCII word boundary, a greedy optional
separator, leftmost non-overlapping matches for `ReplaceAllString`. -/

/-- The raw source texts of `defaultSensitivePatterns`. -/
def defaultSensitivePatterns : List String :=
  ["(?i)\\bpassword\\b",
   "(?i)\\bpasswd\\b",
   "(?i)\\btoken\\b",
   "(?i)\\bapi[_-]?key\\b",
   "(?i)\\bsecret\\b",
   "(?i)\\bauthorization\\b",
   "(?i)\\baccess[_-]?key\\b"]

/-- The compiled form of a built-in sensitive pattern
`(?i)\b pre ([_-]? post)? \b`. -/
structure KeywordPattern where
  preHead : Char
  preTail : GoStr
  optSep : Bool
  post : GoStr
deriving DecidableEq, Repr

/-- The first keyword part of a pattern. -/
def KeywordPattern.pre (p : KeywordPattern) : GoStr := p.preHead :: p.preTail

/-- A `\w` character for `\b`: ASCII letters, digits and underscore. -/
def isWordChar (c : Char) : Bool :=
  let n := c.toNat
  (decide (48 ≤ n) && decide (n ≤ 57)) ||
  (decide (65 ≤ n) && decide (n ≤ 90)) ||
  (decide (97 ≤ n) && decide (n ≤ 122)) ||
  n == 95

/-- Word boundary on the left of the current position, `prev` being the
rune just before it (`none` at the start of the text).  Our keywords start
with a word character, so the boundary holds iff `prev` is not one. -/
def boundaryBefore (prev : Option Char) : Bool :=
  match prev with
  | none => true
  | some c => !isWordChar c

/-- Word boundary on the right of a keyword: the rest of the text is empty
or starts with a non-word rune. -/
def boundaryAfter (s : GoStr) : Bool :=
  match s with
  | [] => true
  | c :: _ => !isWordChar c

/-- Case-folded literal prefix test (`kw` is stored lower-case). -/
def ciStartsWith : GoStr → GoStr → Bool
  | [], _ => true
  | _ :: _, [] => false
  | k :: kw, c :: s => asciiToLower c = k && ciStartsWith kw s

/-- The separator-free tail match of a keyword pattern: `s1` is the text
right after the `pre` part; the `post` part must follow, then a word
boundary. -/
def noSepMatch (p : KeywordPattern) (s1 : GoStr) : Option Nat :=
  if ciStartsWith p.post s1 && boundaryAfter (s1.drop p.post.length) then
    some (p.pre.length + p.post.length)
  else none

/-- Length of the match of pattern `p` at the current position of `s`
(whose preceding rune is `prev`), or `none`.  The optional separator is
greedy and backtracks, as in `regexp` leftmost-first matching. -/
def tryMatchLen (p : KeywordPattern) (prev : Option Char) (s : GoStr) : Option Nat :=
  if !boundaryBefore prev then none
  else if !ciStartsWith p.pre s then none
  else if p.optSep then
    match s.drop p.pre.length with
    | c :: s2 =>
      if (c = '_' || c = '-') && ciStartsWith p.post s2 &&
          boundaryAfter (s2.drop p.post.length) then
        some (p.pre.length + 1 + p.post.length)
      else noSepMatch p (c :: s2)
    | [] => noSepMatch p []
  else noSepMatch p (s.drop p.pre.length)

/-- Does `p` match anywhere in the text whose remaining part is `s` and
whose rune before `s` is `prev`?  (`re.MatchString` model.) -/
def searchMatch (p : KeywordPattern) (prev : Option Char) : GoStr → Bool
  | [] => (tryMatchLen p prev []).isSome
  | c :: rest =>
    (tryMatchLen p prev (c :: rest)).isSome || searchMatch p (some c) rest

/-- Model of `re.MatchString` for a built-in pattern. -/
def patternMatches (p : KeywordPattern) (text : GoStr) : Bool :=
  searchMatch p none text

theorem noSepMatch_pos (p : KeywordPattern) (s1 : GoStr) (n : Nat)
    (h : noSepMatch p s1 = some n) : 1 ≤ n := by
  unfold noSepMatch at h
  split at h
  · simp only [Option.some.injEq] at h
    simp [KeywordPattern.pre] at h
    omega
  · exact absurd h (by simp)

theorem tryMatchLen_pos (p : KeywordPattern) (prev : Option Char) (s : GoStr)
    (n : Nat) (h : tryMatchLen p prev s = some n) : 1 ≤ n := by
  unfold tryMatchLen at h
  split at h
  · exact absurd h (by simp)
  · split at h
    · exact absurd h (by simp)
    · split at h
      · split at h
        · split at h
          · simp only [Option.some.injEq] at h
            omega
          · exact noSepMatch_pos p _ n h
        · exact noSepMatch_pos p _ n h
      · exact noSepMatch_pos p _ n h

/-- The redaction token (`sensitiveReplacement`). -/
def sensitiveReplacement : GoStr := "[redacted]".data

/-- Model of `re.ReplaceAllString(s, sensitiveReplacement)` for a built-in
pattern: replace successive leftmost non-overlapping matches.  After a
match the scan resumes right after the matched span, whose last rune
becomes the new preceding rune.  A match consumes at least one rune
(`tryMatchLen_pos`), so the text's length as fuel is exact; the fuel only
makes the recursion structural. -/
def replaceFrom (p : KeywordPattern) : Nat → Option Char → GoStr → GoStr
  | _, _, [] => []
  | 0, _, s => s
  | fuel + 1, prev, c :: rest =>
    match tryMatchLen p prev (c :: rest) with
    | some n =>
      sensitiveReplacement ++
        replaceFrom p fuel ((c :: rest).take n).getLast? ((c :: rest).drop n)
    | none => c :: replaceFrom p fuel (some c) rest

/-- Model of `re.ReplaceAllString` over the whole text. -/
def patternReplaceAll (p : KeywordPattern) (text : GoStr) : GoStr :=
  replaceFrom p text.length none text

/-- Specification-side view of one piece of the replacement scan: a rune
left untouched because no match starts there, or a whole matched span. -/
inductive Segment where
  | keep (c : Char)
  | matched (span : GoStr)
deriving DecidableEq, Repr

/-- The text a segment covers in the input. -/
def segmentText : Segment → GoStr
  | .keep c => [c]
  | .matched span => span

/-- The text a segment contributes to the replacement output: kept runes
verbatim, matched spans as the redaction token. -/
def segmentRender : Segment → GoStr
  | .keep c => [c]
  | .matched _ => sensitiveReplacement

/-- Specification-side decomposition of the scan of `replaceFrom`: the
input split, left to right, into unmatched runes and the leftmost
non-overlapping matched spans.  Follows the same recursion (and the same
fuel convention) as `replaceFrom`, recording what that function replaces
instead of replacing it. -/
def segmentsFrom (p : KeywordPattern) : Nat → Option Char → GoStr → List Segment
  | _, _, [] => []
  | 0, _, s => s.map Segment.keep
  | fuel + 1, prev, c :: rest =>
    match tryMatchLen p prev (c :: rest) with
    | some n =>
      Segment.matched ((c :: rest).take n) ::
        segmentsFrom p fuel ((c :: rest).take n).getLast? ((c :: rest).drop n)
    | none => Segment.keep c :: segmentsFrom p fuel (some c) rest

/-- The compiled built-in patterns (model of compiling
`defaultSensitivePatterns`). -/
def defaultCompiledPatterns : List KeywordPattern :=
  [⟨'p', "assword".data, false, []⟩,
   ⟨'p', "asswd".data, false, []⟩,
   ⟨'t', "oken".data, false, []⟩,
   ⟨'a', "pi".data, true, "key".data⟩,
   ⟨'s', "ecret".data, false, []⟩,
   ⟨'a', "uthorization".data, false, []⟩,
   ⟨'a', "ccess".data, true, "key".data⟩]

/-- Model of `containsSensitiveData`. -/
def containsSensitiveData (text : GoStr) (patterns : List KeywordPattern) : Bool :=
  patterns.any fun p => patternMatches p text

/-- Model of `redactSensitiveData`. -/
def redactSensitiveData (text : GoStr) (patterns : List KeywordPattern) : GoStr :=
  patterns.foldl (fun redacted p => patternReplaceAll p redacted) text

/-! ### `compileSensitivePatterns`

The regular-expression compiler itself (`regexp.Compile`) is external to
the analyzer; the function is therefore embedded generically over any
compiler `rcompile` returning either a compiled value or an error. -/

/-- Model of `compileSensitivePatterns`, generic in the regexp compiler.
The Go error value wraps the underlying compile error and the offending
pattern text; the `Except` error carries both. -/
def compileSensitivePatterns {γ ε : Type} (rcompile : String → Except ε γ)
    (custom : List String) : Except (ε × String) (List γ) :=
  loop [] [] (defaultSensitivePatterns ++ custom)
where
  loop (seen : List String) (acc : List γ) :
      List String → Except (ε × String) (List γ)
    | [] => .ok acc
    | raw :: rest =>
      let pattern := raw.trim
      if pattern = "" then loop seen acc rest
      else if seen.contains pattern then loop seen acc rest
      else
        match rcompile pattern with
        | .error e => .error (e, pattern)
        | .ok compiled => loop (pattern :: seen) (acc ++ [compiled]) rest

/-- Spec-side compilation of an already trimmed, de-duplicated list: all
patterns in order, or the first failure with its pattern text (no partial
result). -/
def specCompileAll {γ ε : Type} (rcompile : String → Except ε γ) :
    List String → Except (ε × String) (List γ)
  | [] => .ok []
  | pattern :: rest =>
    match rcompile pattern with
    | .error e => .error (e, pattern)
    | .ok compiled => (specCompileAll rcompile rest).map (compiled :: ·)

/-- Spec-side de-duplication keeping the first occurrence of each entry. -/
def dedupFirst : List String → List String
  | [] => []
  | p :: rest => p :: dedupFirst (rest.filter (· ≠ p))
  termination_by l => l.length
  decreasing_by
    simp only [List.length_cons]
    exact Nat.lt_succ_of_le (List.filter_sublist _).length_le

/-- The processed pattern list of the spec: trim, drop empties, keep first
occurrences. -/
def specProcessedPatterns (builtins custom : List String) : List String :=
  dedupFirst (((builtins ++ custom).map String.trim).filter (· ≠ ""))

/-! ### Diagnostics and the per-call analysis loop (`run`) -/

/-- The four diagnostic message constants. -/
def diagStartLower : String :=
  "лог-сообщение должно начинаться со строчной английской буквы"

/-- Message of the alphabet rule. -/
def diagEnglishOnly : String :=
  "лог-сообщение должно содержать только английский текст (кириллица и другие алфавиты запрещены)"

/-- Message of the punctuation/emoji rule. -/
def diagNoSpecials : String :=
  "лог-сообщение не должно содержать спецсимволы (!, ?, ...) и эмодзи"

/-- Message of the sensitive-data rule. -/
def diagSensitive : String :=
  "лог-сообщение содержит потенциально чувствительные данные"

/-- Message attached to every suggested fix. -/
def fixMessage : String := "исправить сообщение логирования"

/-- Model of `strconv.Quote` on one rune, for the common escapes (quote,
backslash, the named control escapes). -/
def quoteRune (c : Char) : GoStr :=
  if c = '"' then ['\\', '"']
  else if c = '\\' then ['\\', '\\']
  else if c = '\n' then ['\\', 'n']
  else if c = '\t' then ['\\', 't']
  else if c = '\r' then ['\\', 'r']
  else [c]

/-- Model of `strconv.Quote`. -/
def goQuote (s : GoStr) : GoStr :=
  '"' :: s.flatMap quoteRune ++ ['"']

/-- An `analysis.TextEdit`: replace the span `[pos, endPos)` by `newText`. -/
structure TextEdit where
  pos : Nat
  endPos : Nat
  newText : GoStr
deriving DecidableEq, Repr

/-- An `analysis.SuggestedFix`. -/
structure SuggestedFix where
  message : String
  textEdits : List TextEdit
deriving DecidableEq, Repr

/-- An `analysis.Diagnostic`, restricted to the fields the analyzer sets. -/
structure Diagnostic where
  pos : Nat
  endPos : Nat
  message : String
  suggestedFixes : List SuggestedFix
deriving DecidableEq, Repr

/-- Model of `buildDiagnostic`.  The Go function receives the message
expression and reads only its source span `[Pos(), End())`, which the
model passes explicitly as `lo`/`hi`. -/
def buildDiagnostic (lo hi : Nat) (message : String)
    (currentText fixedText : GoStr) (allowFix : Bool) : Diagnostic :=
  if !allowFix ∨ fixedText = [] ∨ fixedText = currentText then
    { pos := lo, endPos := hi, message := message, suggestedFixes := [] }
  else
    { pos := lo, endPos := hi, message := message,
      suggestedFixes := [{ message := fixMessage,
                           textEdits := [{ pos := lo, endPos := hi,
                                           newText := goQuote fixedText }] }] }

/-- The diagnostics the `run` loop reports for the fragment at extraction
index `idx` of a call site, in report order: the case rule (index 0 only),
then the alphabet, punctuation/emoji and sensitive-data rules. -/
def fragmentDiagnostics (patterns : List KeywordPattern) (lo hi : Nat)
    (canFix : Bool) (idx : Nat) (literal : GoStr) : List Diagnostic :=
  (if idx = 0 then
    match violatesLowercaseRule literal with
    | (true, fixed) => [buildDiagnostic lo hi diagStartLower literal fixed canFix]
    | (false, _) => []
  else []) ++
  (if containsNonEnglishLetters literal then
    [buildDiagnostic lo hi diagEnglishOnly literal [] false]
  else []) ++
  (if containsSpecialSymbolsOrEmoji literal then
    [buildDiagnostic lo hi diagNoSpecials literal
      (stripSpecialSymbolsAndEmoji literal) canFix]
  else []) ++
  (if containsSensitiveData literal patterns then
    [buildDiagnostic lo hi diagSensitive literal
      (redactSensitiveData literal patterns) canFix]
  else [])

/-- Model of the body of `run` for one resolved call site: everything the
loop reports about the message expression `msgExpr` (whose source span is
`[lo, hi)`), in report order. -/
def analyzeMessageExpr (patterns : List KeywordPattern) (msgExpr : Expr)
    (lo hi : Nat) : List Diagnostic :=
  if (extractAllStringLiterals msgExpr).length = 0 then []
  else
    (extractAllStringLiterals msgExpr).enum.flatMap fun il =>
      fragmentDiagnostics patterns lo hi (canRewriteMessageExpr msgExpr) il.1 il.2

/-- `n`-fold parenthesization (used to state parenthesization
transparency). -/
def parenIter : Nat → Expr → Expr
  | 0, e => e
  | n + 1, e => Expr.paren (parenIter n e)

/-- The patterns the compilation loop of `compileSensitivePatterns` will
still accept from `l` given the already-seen set `seen`: trimmed,
non-empty, first occurrences only. -/
def pendingPatterns (seen : List String) : List String → List String
  | [] => []
  | raw :: rest =>
    if raw.trim = "" ∨ seen.contains raw.trim then pendingPatterns seen rest
    else raw.trim :: pendingPatterns (raw.trim :: seen) rest

/-! ### General lemmas about the embedded functions -/

theorem buildDiagnostic_message (lo hi : Nat) (m : String) (cur fx : GoStr)
    (allow : Bool) : (buildDiagnostic lo hi m cur fx allow).message = m := by
  unfold buildDiagnostic
  split <;> rfl

theorem buildDiagnostic_noFix (lo hi : Nat) (m : String) (cur fx : GoStr) :
    (buildDiagnostic lo hi m cur fx false).suggestedFixes = [] := by
  simp [buildDiagnostic]

/-- Every diagnostic of a fragment whose `canFix` flag is `false` has no
suggested fixes. -/
theorem fragmentDiagnostics_noFix (patterns : List KeywordPattern)
    (lo hi : Nat) (idx : Nat) (literal : GoStr) (d : Diagnostic)
    (hd : d ∈ fragmentDiagnostics patterns lo hi false idx literal) :
    d.suggestedFixes = [] := by
  simp only [fragmentDiagnostics, List.mem_append] at hd
  rcases hd with ((h1 | h2) | h3) | h4
  · split at h1
    · rcases hv : violatesLowercaseRule literal with ⟨b, fixed⟩
      rw [hv] at h1
      cases b
      · simp at h1
      · simp at h1
        rw [h1]
        exact buildDiagnostic_noFix _ _ _ _ _
    · simp at h1
  · split at h2
    · simp at h2
      rw [h2]
      exact buildDiagnostic_noFix _ _ _ _ _
    · simp at h2
  · split at h3
    · simp at h3
      rw [h3]
      exact buildDiagnostic_noFix _ _ _ _ _
    · simp at h3
  · split at h4
    · simp at h4
      rw [h4]
      exact buildDiagnostic_noFix _ _ _ _ _
    · simp at h4

theorem stripParens_paren (e : Expr) : stripParens (Expr.paren e) = stripParens e :=
  rfl

theorem isStringExpr_paren (info : TypeTable) (e : Expr) :
    isStringExpr info (Expr.paren e) = isStringExpr info e := by
  unfold isStringExpr
  rw [stripParens_paren]

theorem canRewrite_paren (e : Expr) :
    canRewriteMessageExpr (Expr.paren e) = canRewriteMessageExpr e := by
  unfold canRewriteMessageExpr
  rw [stripParens_paren]

theorem extract_paren (e : Expr) :
    extractAllStringLiterals (Expr.paren e) = extractAllStringLiterals e :=
  rfl

/-! ### The claims -/

/-- C3: `extractAllStringLiterals` returns exactly the decoded texts of the
string-literal leaves reachable through `+` nodes and parentheses, in
left-to-right order; other node shapes are inert; on
`"a" + ("b" + dynamic())` it returns exactly `["a", "b"]`, and on a
concatenation with no literal operands it returns the empty sequence, for
which the engine emits no diagnostic. -/
theorem extraction_returns_literal_leaves :
    (∀ e, extractAllStringLiterals e = specLiteralLeaves e) ∧
    extractAllStringLiterals
        (Expr.binary BinOp.add (Expr.basicLit LitKind.string "\"a\"")
          (Expr.paren (Expr.binary BinOp.add
            (Expr.basicLit LitKind.string "\"b\"") (Expr.other 0)))) =
      ["a".data, "b".data] ∧
    extractAllStringLiterals (Expr.binary BinOp.add (Expr.other 0) (Expr.other 1)) = [] ∧
    analyzeMessageExpr defaultCompiledPatterns
      (Expr.binary BinOp.add (Expr.other 0) (Expr.other 1)) 0 1 = [] :=
  ⟨extractAllStringLiterals_eq, by decide, by decide, by decide⟩

/-- C10: parenthesization is transparent for literal extraction, for the
string-type test and for the rewrite-safety test, for any number of
enclosing parentheses; a parenthesized literal `("Msg!")` is still
rewrite-safe and its suggested fixes replace the whole parenthesized
span. -/
theorem paren_transparency :
    (∀ e, extractAllStringLiterals (Expr.paren e) = extractAllStringLiterals e) ∧
    (∀ info e, isStringExpr info (Expr.paren e) = isStringExpr info e) ∧
    (∀ e, canRewriteMessageExpr (Expr.paren e) = canRewriteMessageExpr e) ∧
    (∀ n e, extractAllStringLiterals (parenIter n e) = extractAllStringLiterals e ∧
      (∀ info, isStringExpr info (parenIter n e) = isStringExpr info e) ∧
      canRewriteMessageExpr (parenIter n e) = canRewriteMessageExpr e) ∧
    canRewriteMessageExpr (Expr.paren (Expr.basicLit LitKind.string "\"Msg!\"")) = true ∧
    analyzeMessageExpr defaultCompiledPatterns
        (Expr.paren (Expr.basicLit LitKind.string "\"Msg!\"")) 0 7 =
      [{ pos := 0, endPos := 7, message := diagStartLower,
         suggestedFixes :=
           [{ message := fixMessage,
              textEdits := [{ pos := 0, endPos := 7, newText := goQuote "msg!".data }] }] },
       { pos := 0, endPos := 7, message := diagNoSpecials,
         suggestedFixes :=
           [{ message := fixMessage,
              textEdits := [{ pos := 0, endPos := 7, newText := goQuote "Msg".data }] }] }] := by
  refine ⟨extract_paren, isStringExpr_paren, canRewrite_paren, ?_, by decide, by decide⟩
  intro n e
  induction n with
  | zero => exact ⟨rfl, fun _ => rfl, rfl⟩
  | succ n ih =>
    refine ⟨?_, ?_, ?_⟩
    · rw [parenIter, extract_paren, ih.1]
    · intro info
      rw [parenIter, isStringExpr_paren, ih.2.1 info]
    · rw [parenIter, canRewrite_paren, ih.2.2]

/-- C2: when the message expression is not (after removing parentheses) a
single string literal, no diagnostic the call produces carries a suggested
rewrite. -/
theorem concatenation_never_rewritten (patterns : List KeywordPattern)
    (e : Expr) (lo hi : Nat) (h : canRewriteMessageExpr e = false) :
    ∀ d ∈ analyzeMessageExpr patterns e lo hi, d.suggestedFixes = [] := by
  intro d hd
  unfold analyzeMessageExpr at hd
  split at hd
  · simp at hd
  · rw [h] at hd
    rw [List.mem_flatMap] at hd
    obtain ⟨il, _, hmem⟩ := hd
    exact fragmentDiagnostics_noFix patterns lo hi il.1 il.2 d hmem

/-- Witness for C2: a concatenated message (`"Hello " + dynamic`) whose
first fragment violates the case rule still yields only fix-free
diagnostics. -/
theorem concatenation_never_rewritten_witness :
    canRewriteMessageExpr
        (Expr.binary BinOp.add (Expr.basicLit LitKind.string "\"Hello \"") (Expr.other 0)) = false ∧
    (∀ d ∈ analyzeMessageExpr defaultCompiledPatterns
        (Expr.binary BinOp.add (Expr.basicLit LitKind.string "\"Hello \"") (Expr.other 0)) 0 9,
      d.suggestedFixes = []) :=
  ⟨by decide,
   concatenation_never_rewritten defaultCompiledPatterns
     (Expr.binary BinOp.add (Expr.basicLit LitKind.string "\"Hello \"") (Expr.other 0))
     0 9 (by decide)⟩

/-- C5 counterexample: the single literal `"!!!"` violates the
punctuation rule with computed fixed text `""`, which differs from the
original text, yet the emitted diagnostic carries no suggested rewrite
(the builder also demands a non-empty fixed text). -/
theorem single_literal_fix_counterexample :
    canRewriteMessageExpr (Expr.basicLit LitKind.string "\"!!!\"") = true ∧
    stripSpecialSymbolsAndEmoji "!!!".data = [] ∧
    stripSpecialSymbolsAndEmoji "!!!".data ≠ "!!!".data ∧
    analyzeMessageExpr defaultCompiledPatterns
        (Expr.basicLit LitKind.string "\"!!!\"") 0 5 =
      [{ pos := 0, endPos := 5, message := diagNoSpecials, suggestedFixes := [] }] := by
  decide

/-- C5 (amended): for a call whose message argument is a single string
literal, a violation whose computed fixed text is non-empty and differs
from the original text receives a suggested rewrite, and the rewrite
replaces the entire argument span with the re-quoted literal of the fixed
text. -/
theorem single_literal_fix_amended (e : Expr) (lo hi : Nat) (msg : String)
    (cur fixed : GoStr) (hre : canRewriteMessageExpr e = true)
    (hne : fixed ≠ []) (hdiff : fixed ≠ cur) :
    buildDiagnostic lo hi msg cur fixed (canRewriteMessageExpr e) =
      { pos := lo, endPos := hi, message := msg,
        suggestedFixes :=
          [{ message := fixMessage,
             textEdits := [{ pos := lo, endPos := hi, newText := goQuote fixed }] }] } := by
  rw [hre]
  simp [buildDiagnostic, hne, hdiff]

/-- Witness for the amended C5: the single literal `"Ab"` with the case
rule's fixed text `"ab"`. -/
theorem single_literal_fix_amended_witness :
    canRewriteMessageExpr (Expr.basicLit LitKind.string "\"Ab\"") = true ∧
    "ab".data ≠ ([] : GoStr) ∧ "ab".data ≠ "Ab".data ∧
    buildDiagnostic 0 4 diagStartLower "Ab".data "ab".data
        (canRewriteMessageExpr (Expr.basicLit LitKind.string "\"Ab\"")) =
      { pos := 0, endPos := 4, message := diagStartLower,
        suggestedFixes :=
          [{ message := fixMessage,
             textEdits := [{ pos := 0, endPos := 4, newText := goQuote "ab".data }] }] } :=
  ⟨by decide, by decide, by decide,
   single_literal_fix_amended (Expr.basicLit LitKind.string "\"Ab\"") 0 4
     diagStartLower "Ab".data "ab".data (by decide) (by decide) (by decide)⟩

theorem lookup_mem_keys {l : List (String × Nat)} {k : String} {v : Nat}
    (h : l.lookup k = some v) : (l.map Prod.fst).contains k = true := by
  induction l with
  | nil => simp [List.lookup] at h
  | cons a t ih =>
    rcases a with ⟨a1, a2⟩
    rw [List.lookup_cons] at h
    rcases hk : (k == a1) with _ | _
    · rw [hk] at h
      simp only [List.map_cons, List.contains_cons, hk, Bool.false_or]
      exact ih h
    · simp [List.contains_cons, hk]

theorem messageArgIndex_characterize (pkgPath fnName : String) (idx : Nat)
    (h : messageArgIndex pkgPath fnName = some idx) :
    (pkgPath = "log/slog" ∧ (slogMessageIndexes.map Prod.fst).contains fnName = true) ∨
    (pkgPath = "go.uber.org/zap" ∧
      (fnName = "Log" ∨ zapMessageFirstMethods.contains fnName = true)) := by
  unfold messageArgIndex at h
  split at h
  · exact Or.inl ⟨by assumption, lookup_mem_keys h⟩
  · split at h
    · split at h
      · exact Or.inr ⟨by assumption, Or.inl (by assumption)⟩
      · split at h
        · exact Or.inr ⟨by assumption, Or.inr (by assumption)⟩
        · exact absurd h (by simp)
    · exact absurd h (by simp)

/-- C1: resolution succeeds only for a call whose statically resolved
target is declared in `log/slog` or `go.uber.org/zap` with a name in the
corresponding message-index table, whose message-argument index lies
within the actual argument count, and whose message argument is
string-typed; in particular a same-named method of any other package is
never resolved. -/
theorem logging_call_resolution_sound (info : TypeTable) (call : CallExpr)
    (e : Expr) (h : extractMessageExpr info call = some e) :
    ∃ fn idx, call.fn = some fn ∧
      (∃ pkgPath, fn.pkgPath = some pkgPath ∧
        messageArgIndex pkgPath fn.name = some idx ∧
        ((pkgPath = "log/slog" ∧
            (slogMessageIndexes.map Prod.fst).contains fn.name = true) ∨
         (pkgPath = "go.uber.org/zap" ∧
            (fn.name = "Log" ∨ zapMessageFirstMethods.contains fn.name = true)))) ∧
      idx < call.args.length ∧ call.args[idx]? = some e ∧
      isStringExpr info e = true := by
  unfold extractMessageExpr at h
  split at h
  · exact absurd h (by simp)
  · rename_i fn hfn
    split at h
    · exact absurd h (by simp)
    · rename_i pkgPath hpkg
      split at h
      · exact absurd h (by simp)
      · rename_i idx hidx
        split at h
        · exact absurd h (by simp)
        · rename_i hlt
          split at h
          · exact absurd h (by simp)
          · rename_i arg harg
            split at h
            · rename_i hstr
              simp only [Option.some.injEq] at h
              subst h
              exact ⟨fn, idx, hfn,
                ⟨pkgPath, hpkg, hidx, messageArgIndex_characterize pkgPath fn.name idx hidx⟩,
                by omega, harg, hstr⟩
            · exact absurd h (by simp)

/-- Witness for C1: a `slog.Info` call with a string-typed literal message
argument resolves to that argument. -/
theorem logging_call_resolution_sound_witness :
    extractMessageExpr
        { types := fun e =>
            if e = Expr.basicLit LitKind.string "\"hi\"" then
              some { underlying := GoUnderlying.basic 32 }
            else none }
        { fn := some { pkgPath := some "log/slog", name := "Info" },
          args := [Expr.basicLit LitKind.string "\"hi\""] } =
      some (Expr.basicLit LitKind.string "\"hi\"") ∧
    ∃ fn idx,
      ({ fn := some { pkgPath := some "log/slog", name := "Info" },
         args := [Expr.basicLit LitKind.string "\"hi\""] } : CallExpr).fn = some fn ∧
      (∃ pkgPath, fn.pkgPath = some pkgPath ∧
        messageArgIndex pkgPath fn.name = some idx ∧
        ((pkgPath = "log/slog" ∧
            (slogMessageIndexes.map Prod.fst).contains fn.name = true) ∨
         (pkgPath = "go.uber.org/zap" ∧
            (fn.name = "Log" ∨ zapMessageFirstMethods.contains fn.name = true)))) ∧
      idx < ([Expr.basicLit LitKind.string "\"hi\""] : List Expr).length ∧
      ([Expr.basicLit LitKind.string "\"hi\""] : List Expr)[idx]? =
        some (Expr.basicLit LitKind.string "\"hi\"") ∧
      isStringExpr
        { types := fun e =>
            if e = Expr.basicLit LitKind.string "\"hi\"" then
              some { underlying := GoUnderlying.basic 32 }
            else none }
        (Expr.basicLit LitKind.string "\"hi\"") = true :=
  ⟨by decide, logging_call_resolution_sound _ _ _ (by decide)⟩

/-! ### The case rule (C4) -/

theorem firstVisibleRune_go_spec (t : GoStr) : ∀ i,
    firstVisibleRune.go i t =
      match t.dropWhile goIsSpace with
      | [] => none
      | c :: _ => some (i + (t.takeWhile goIsSpace).length, c) := by
  induction t with
  | nil => intro i; simp [firstVisibleRune.go, List.dropWhile_nil]
  | cons c rest ih =>
    intro i
    rcases hsp : goIsSpace c with _ | _
    · simp [firstVisibleRune.go, hsp, List.dropWhile_cons, List.takeWhile_cons]
    · rw [List.dropWhile_cons, List.takeWhile_cons, hsp]
      simp only [if_true]
      rw [firstVisibleRune.go, hsp]
      simp only [if_true]
      rw [ih (i + 1)]
      rcases hdrop : rest.dropWhile goIsSpace with _ | ⟨d, rest2⟩
      · rfl
      · simp only [List.length_cons, Option.some.injEq, Prod.mk.injEq]
        exact ⟨by omega, trivial⟩

theorem firstVisibleRune_none (t : GoStr) (h : t.dropWhile goIsSpace = []) :
    firstVisibleRune t = none := by
  unfold firstVisibleRune
  rw [firstVisibleRune_go_spec t 0, h]

theorem firstVisibleRune_some (t : GoStr) (c : Char) (rest : GoStr)
    (h : t.dropWhile goIsSpace = c :: rest) :
    firstVisibleRune t = some ((t.takeWhile goIsSpace).length, c) := by
  unfold firstVisibleRune
  rw [firstVisibleRune_go_spec t 0, h]
  simp

/-- C4: the case rule flags a string exactly when its first non-whitespace
rune is an ASCII upper-case letter, in which case the fix lowercases that
single rune and keeps the whitespace prefix and the remainder intact; a
string with no visible rune is never flagged. -/
theorem lowercase_rule_characterize (t : GoStr) :
    ((violatesLowercaseRule t).1 = true ↔
      ∃ c rest, t.dropWhile goIsSpace = c :: rest ∧ isAsciiUpper c = true) ∧
    (∀ c rest, t.dropWhile goIsSpace = c :: rest → isAsciiUpper c = true →
      (violatesLowercaseRule t).2 =
        t.takeWhile goIsSpace ++ asciiToLower c :: rest) ∧
    (t.dropWhile goIsSpace = [] → (violatesLowercaseRule t).1 = false) := by
  have htw : t.takeWhile goIsSpace ++ t.dropWhile goIsSpace = t :=
    List.takeWhile_append_dropWhile goIsSpace t
  rcases hdrop : t.dropWhile goIsSpace with _ | ⟨c, rest⟩
  · have hv : violatesLowercaseRule t = (false, []) := by
      unfold violatesLowercaseRule
      rw [firstVisibleRune_none t hdrop]
    rw [hv]
    refine ⟨by simp, ?_, by simp⟩
    intro c2 rest2 hc
    exact absurd hc (by simp)
  · rw [hdrop] at htw
    set w := t.takeWhile goIsSpace with hw
    have htake : t.take w.length = w := by
      rw [← htw]
      exact List.take_left _ _
    have hdropn1 : t.drop (w.length + 1) = rest := by
      rw [← List.drop_drop 1 w.length t]
      have hd : t.drop w.length = c :: rest := by
        rw [← htw]
        exact List.drop_left _ _
      rw [hd]
      rfl
    rcases hup : isAsciiUpper c with _ | _
    · have hv : violatesLowercaseRule t = (false, []) := by
        unfold violatesLowercaseRule
        rw [firstVisibleRune_some t c rest hdrop]
        simp [hup]
      rw [hv]
      refine ⟨?_, ?_, by simp⟩
      · constructor
        · intro hfalse
          exact absurd hfalse (by simp)
        · rintro ⟨c2, rest2, heq, hup2⟩
          injection heq with h1 _
          subst h1
          rw [hup] at hup2
          exact absurd hup2 (by simp)
      · intro c2 rest2 heq hup2
        injection heq with h1 _
        subst h1
        rw [hup] at hup2
        exact absurd hup2 (by simp)
    · have hv : violatesLowercaseRule t =
          (true, t.take (t.takeWhile goIsSpace).length ++ [asciiToLower c] ++
            t.drop ((t.takeWhile goIsSpace).length + 1)) := by
        unfold violatesLowercaseRule
        rw [firstVisibleRune_some t c rest hdrop]
        simp [hup]
      rw [hv]
      refine ⟨⟨fun _ => ⟨c, rest, rfl, hup⟩, fun _ => rfl⟩, ?_, ?_⟩
      · intro c2 rest2 heq hup2
        injection heq with h1 h2
        subst h1
        subst h2
        rw [htake, hdropn1]
        simp
      · intro habs
        exact absurd habs (by simp)

/-- Witness for C4: `" Ab"` is flagged and fixed to `" ab"`. -/
theorem lowercase_rule_characterize_witness :
    (violatesLowercaseRule " Ab".data).1 = true ∧
    (violatesLowercaseRule " Ab".data).2 = " ab".data :=
  ⟨(lowercase_rule_characterize " Ab".data).1.mpr ⟨'A', ['b'], by decide, by decide⟩,
   by
     have h := (lowercase_rule_characterize " Ab".data).2.1 'A' ['b']
       (by decide) (by decide)
     rw [h]
     decide⟩

/-! ### The pattern compiler (C6) -/

theorem except_map_map {ε α β δ : Type} (x : Except ε α) (f : α → β) (g : β → δ) :
    (x.map f).map g = x.map (fun a => g (f a)) := by
  cases x <;> rfl

theorem bool_eq_of_iff {a b : Bool} (h : a = true ↔ b = true) : a = b := by
  cases a <;> cases b <;> simp_all

theorem compile_loop_eq {γ ε : Type} (rcompile : String → Except ε γ) :
    ∀ (l : List String) (seen : List String) (acc : List γ),
      compileSensitivePatterns.loop rcompile seen acc l =
        (specCompileAll rcompile (pendingPatterns seen l)).map (acc ++ ·) := by
  intro l
  induction l with
  | nil =>
    intro seen acc
    simp [compileSensitivePatterns.loop, pendingPatterns, specCompileAll, Except.map]
  | cons raw rest ih =>
    intro seen acc
    by_cases h0 : raw.trim = ""
    · rw [show compileSensitivePatterns.loop rcompile seen acc (raw :: rest) =
          compileSensitivePatterns.loop rcompile seen acc rest by
        simp [compileSensitivePatterns.loop, h0]]
      rw [show pendingPatterns seen (raw :: rest) = pendingPatterns seen rest by
        simp [pendingPatterns, h0]]
      exact ih seen acc
    · by_cases h1 : raw.trim ∈ seen
      · rw [show compileSensitivePatterns.loop rcompile seen acc (raw :: rest) =
            compileSensitivePatterns.loop rcompile seen acc rest by
          simp [compileSensitivePatterns.loop, h0, h1]]
        rw [show pendingPatterns seen (raw :: rest) = pendingPatterns seen rest by
          simp [pendingPatterns, h0, h1]]
        exact ih seen acc
      · rw [show pendingPatterns seen (raw :: rest) =
            raw.trim :: pendingPatterns (raw.trim :: seen) rest by
          simp [pendingPatterns, h0, h1]]
        rcases hc : rcompile raw.trim with e | g
        · rw [show compileSensitivePatterns.loop rcompile seen acc (raw :: rest) =
              .error (e, raw.trim) by
            simp [compileSensitivePatterns.loop, h0, h1, hc]]
          rw [show specCompileAll rcompile
              (raw.trim :: pendingPatterns (raw.trim :: seen) rest) =
              .error (e, raw.trim) by
            simp [specCompileAll, hc]]
          rfl
        · rw [show compileSensitivePatterns.loop rcompile seen acc (raw :: rest) =
              compileSensitivePatterns.loop rcompile (raw.trim :: seen)
                (acc ++ [g]) rest by
            simp [compileSensitivePatterns.loop, h0, h1, hc]]
          rw [ih (raw.trim :: seen) (acc ++ [g])]
          rw [show specCompileAll rcompile
              (raw.trim :: pendingPatterns (raw.trim :: seen) rest) =
              (specCompileAll rcompile (pendingPatterns (raw.trim :: seen) rest)).map
                (g :: ·) by
            simp [specCompileAll, hc]]
          rw [except_map_map]
          congr 1
          funext x
          simp

theorem pendingPatterns_eq_dedup (l : List String) : ∀ seen : List String,
    pendingPatterns seen l =
      dedupFirst ((l.map String.trim).filter
        (fun p => !(p == "") && !seen.contains p)) := by
  induction l with
  | nil => intro seen; simp [pendingPatterns, dedupFirst]
  | cons raw rest ih =>
    intro seen
    by_cases h0 : raw.trim = ""
    · rw [show pendingPatterns seen (raw :: rest) = pendingPatterns seen rest by
        simp [pendingPatterns, h0]]
      rw [ih seen]
      congr 1
      simp [h0]
    · by_cases h1 : raw.trim ∈ seen
      · rw [show pendingPatterns seen (raw :: rest) = pendingPatterns seen rest by
          simp [pendingPatterns, h0, h1]]
        rw [ih seen]
        congr 1
        simp [h0, h1]
      · rw [show pendingPatterns seen (raw :: rest) =
            raw.trim :: pendingPatterns (raw.trim :: seen) rest by
          simp [pendingPatterns, h0, h1]]
        rw [ih (raw.trim :: seen)]
        have hhead : ((raw :: rest).map String.trim).filter
            (fun p => !(p == "") && !seen.contains p) =
            raw.trim :: (rest.map String.trim).filter
              (fun p => !(p == "") && !seen.contains p) := by
          simp [h0, h1]
        rw [hhead, dedupFirst, List.filter_filter]
        congr 2
        apply List.filter_congr
        intro x _
        apply bool_eq_of_iff
        simp [List.contains_cons]
        tauto

/-- C6: `compileSensitivePatterns` processes the built-ins followed by the
custom patterns in order, trims each entry, drops empties, drops
duplicates keeping the first occurrence, and either fails on the first
entry that does not compile — returning that pattern text together with
the underlying error and no pattern list — or returns all compiled
patterns in order.  The statement is generic in the external regexp
compiler. -/
theorem pattern_compilation_characterize {γ ε : Type}
    (rcompile : String → Except ε γ) (custom : List String) :
    compileSensitivePatterns rcompile custom =
      specCompileAll rcompile
        (specProcessedPatterns defaultSensitivePatterns custom) := by
  unfold compileSensitivePatterns specProcessedPatterns
  rw [compile_loop_eq rcompile (defaultSensitivePatterns ++ custom) [] []]
  rw [pendingPatterns_eq_dedup]
  have hfilter : (((defaultSensitivePatterns ++ custom).map String.trim).filter
      (fun p => !(p == "") && !([] : List String).contains p)) =
      ((defaultSensitivePatterns ++ custom).map String.trim).filter (· ≠ "") := by
    apply List.filter_congr
    intro x _
    apply bool_eq_of_iff
    simp
  rw [hfilter]
  generalize specCompileAll rcompile
    (dedupFirst (((defaultSensitivePatterns ++ custom).map String.trim).filter
      (· ≠ ""))) = r
  cases r <;> simp [Except.map]

/-! ### The orchestration loop (C9) -/

theorem msg_eng_ne_case : (diagEnglishOnly == diagStartLower) = false := by decide

theorem msg_spec_ne_case : (diagNoSpecials == diagStartLower) = false := by decide

theorem msg_sens_ne_case : (diagSensitive == diagStartLower) = false := by decide

theorem msg_case_ne_eng : (diagStartLower == diagEnglishOnly) = false := by decide

theorem msg_spec_ne_eng : (diagNoSpecials == diagEnglishOnly) = false := by decide

theorem msg_sens_ne_eng : (diagSensitive == diagEnglishOnly) = false := by decide

theorem msg_case_ne_spec : (diagStartLower == diagNoSpecials) = false := by decide

theorem msg_eng_ne_spec : (diagEnglishOnly == diagNoSpecials) = false := by decide

theorem msg_sens_ne_spec : (diagSensitive == diagNoSpecials) = false := by decide

theorem msg_case_ne_sens : (diagStartLower == diagSensitive) = false := by decide

theorem msg_eng_ne_sens : (diagEnglishOnly == diagSensitive) = false := by decide

theorem msg_spec_ne_sens : (diagNoSpecials == diagSensitive) = false := by decide

theorem filter_if_singleton (P : Prop) [Decidable P] (d : Diagnostic)
    (q : Diagnostic → Bool) :
    (if P then [d] else []).filter q = if P ∧ q d = true then [d] else [] := by
  by_cases h : P <;> by_cases hq : q d = true <;> simp [h, hq]

theorem frag_filter_case (ps : List KeywordPattern) (lo hi : Nat) (cf : Bool)
    (idx : Nat) (lit : GoStr) :
    (fragmentDiagnostics ps lo hi cf idx lit).filter
        (fun d => d.message == diagStartLower) =
      if idx = 0 ∧ (violatesLowercaseRule lit).1 = true then
        [buildDiagnostic lo hi diagStartLower lit (violatesLowercaseRule lit).2 cf]
      else [] := by
  unfold fragmentDiagnostics
  rw [List.filter_append, List.filter_append, List.filter_append]
  rw [filter_if_singleton, filter_if_singleton, filter_if_singleton]
  rcases hv : violatesLowercaseRule lit with ⟨b, fixed⟩
  simp only [buildDiagnostic_message, msg_eng_ne_case, msg_spec_ne_case,
    msg_sens_ne_case]
  cases b
  · by_cases hidx : idx = 0 <;>
      simp [hidx, List.filter_nil]
  · by_cases hidx : idx = 0
    · subst hidx
      simp [buildDiagnostic_message]
    · simp [hidx]

theorem frag_filter_eng (ps : List KeywordPattern) (lo hi : Nat) (cf : Bool)
    (idx : Nat) (lit : GoStr) :
    (fragmentDiagnostics ps lo hi cf idx lit).filter
        (fun d => d.message == diagEnglishOnly) =
      if containsNonEnglishLetters lit = true then
        [buildDiagnostic lo hi diagEnglishOnly lit [] false]
      else [] := by
  unfold fragmentDiagnostics
  rw [List.filter_append, List.filter_append, List.filter_append]
  rw [filter_if_singleton, filter_if_singleton, filter_if_singleton]
  rcases hv : violatesLowercaseRule lit with ⟨b, fixed⟩
  simp only [buildDiagnostic_message, msg_spec_ne_eng, msg_sens_ne_eng]
  have hcaseblock : ((if idx = 0 then
      match (b, fixed) with
      | (true, fixed) => [buildDiagnostic lo hi diagStartLower lit fixed cf]
      | (false, _) => []
    else []).filter (fun d => d.message == diagEnglishOnly)) = [] := by
    by_cases hidx : idx = 0
    · cases b <;> simp [hidx, buildDiagnostic_message, msg_case_ne_eng]
    · simp [hidx]
  rw [hcaseblock]
  by_cases he : containsNonEnglishLetters lit = true <;>
    simp [he, buildDiagnostic_message]

theorem frag_filter_spec (ps : List KeywordPattern) (lo hi : Nat) (cf : Bool)
    (idx : Nat) (lit : GoStr) :
    (fragmentDiagnostics ps lo hi cf idx lit).filter
        (fun d => d.message == diagNoSpecials) =
      if containsSpecialSymbolsOrEmoji lit = true then
        [buildDiagnostic lo hi diagNoSpecials lit
          (stripSpecialSymbolsAndEmoji lit) cf]
      else [] := by
  unfold fragmentDiagnostics
  rw [List.filter_append, List.filter_append, List.filter_append]
  rw [filter_if_singleton, filter_if_singleton, filter_if_singleton]
  rcases hv : violatesLowercaseRule lit with ⟨b, fixed⟩
  simp only [buildDiagnostic_message, msg_eng_ne_spec, msg_sens_ne_spec]
  have hcaseblock : ((if idx = 0 then
      match (b, fixed) with
      | (true, fixed) => [buildDiagnostic lo hi diagStartLower lit fixed cf]
      | (false, _) => []
    else []).filter (fun d => d.message == diagNoSpecials)) = [] := by
    by_cases hidx : idx = 0
    · cases b <;> simp [hidx, buildDiagnostic_message, msg_case_ne_spec]
    · simp [hidx]
  rw [hcaseblock]
  by_cases he : containsSpecialSymbolsOrEmoji lit = true <;>
    simp [he, buildDiagnostic_message]

theorem frag_filter_sens (ps : List KeywordPattern) (lo hi : Nat) (cf : Bool)
    (idx : Nat) (lit : GoStr) :
    (fragmentDiagnostics ps lo hi cf idx lit).filter
        (fun d => d.message == diagSensitive) =
      if containsSensitiveData lit ps = true then
        [buildDiagnostic lo hi diagSensitive lit
          (redactSensitiveData lit ps) cf]
      else [] := by
  unfold fragmentDiagnostics
  rw [List.filter_append, List.filter_append, List.filter_append]
  rw [filter_if_singleton, filter_if_singleton, filter_if_singleton]
  rcases hv : violatesLowercaseRule lit with ⟨b, fixed⟩
  simp only [buildDiagnostic_message, msg_eng_ne_sens, msg_spec_ne_sens]
  have hcaseblock : ((if idx = 0 then
      match (b, fixed) with
      | (true, fixed) => [buildDiagnostic lo hi diagStartLower lit fixed cf]
      | (false, _) => []
    else []).filter (fun d => d.message == diagSensitive)) = [] := by
    by_cases hidx : idx = 0
    · cases b <;> simp [hidx, buildDiagnostic_message, msg_case_ne_sens]
    · simp [hidx]
  rw [hcaseblock]
  by_cases he : containsSensitiveData lit ps = true <;>
    simp [he, buildDiagnostic_message]

theorem flatMap_filter_case_tail (ps : List KeywordPattern) (lo hi : Nat)
    (cf : Bool) :
    ∀ (l : List GoStr) (n : Nat), n ≠ 0 →
      ((List.enumFrom n l).flatMap
        (fun il => fragmentDiagnostics ps lo hi cf il.1 il.2)).filter
          (fun d => d.message == diagStartLower) = [] := by
  intro l
  induction l with
  | nil => intro n _; simp
  | cons a t ih =>
    intro n hn
    rw [List.enumFrom_cons, List.flatMap_cons, List.filter_append,
      frag_filter_case]
    rw [if_neg (by simp [hn])]
    rw [List.nil_append]
    exact ih (n + 1) (by omega)

theorem flatMap_filter_count (ps : List KeywordPattern) (lo hi : Nat)
    (cf : Bool) (m : String) (pred : GoStr → Bool) (mk : GoStr → Diagnostic)
    (hfrag : ∀ idx lit, (fragmentDiagnostics ps lo hi cf idx lit).filter
      (fun d => d.message == m) = if pred lit = true then [mk lit] else []) :
    ∀ (l : List GoStr) (n : Nat),
      (((List.enumFrom n l).flatMap
        (fun il => fragmentDiagnostics ps lo hi cf il.1 il.2)).filter
          (fun d => d.message == m)).length = (l.filter pred).length := by
  intro l
  induction l with
  | nil => intro n; simp
  | cons a t ih =>
    intro n
    rw [List.enumFrom_cons, List.flatMap_cons, List.filter_append,
      List.length_append, hfrag, List.filter_cons]
    by_cases hp : pred a = true <;>
      simp [hp, ih (n + 1), Nat.add_comm]

/-- C9: per call site the case rule is evaluated only on the fragment at
extraction index 0 — the case diagnostics are exactly those produced by
the first fragment — while the alphabet, punctuation/emoji and
sensitive-data rules are evaluated on every extracted fragment — their
diagnostic counts equal the counts of violating fragments. -/
theorem case_rule_only_first_fragment (ps : List KeywordPattern) (e : Expr)
    (lo hi : Nat) :
    ((analyzeMessageExpr ps e lo hi).filter
        (fun d => d.message == diagStartLower) =
      match extractAllStringLiterals e with
      | [] => []
      | l0 :: _ =>
        if (violatesLowercaseRule l0).1 = true then
          [buildDiagnostic lo hi diagStartLower l0 (violatesLowercaseRule l0).2
            (canRewriteMessageExpr e)]
        else []) ∧
    (((analyzeMessageExpr ps e lo hi).filter
        (fun d => d.message == diagEnglishOnly)).length =
      ((extractAllStringLiterals e).filter containsNonEnglishLetters).length) ∧
    (((analyzeMessageExpr ps e lo hi).filter
        (fun d => d.message == diagNoSpecials)).length =
      ((extractAllStringLiterals e).filter containsSpecialSymbolsOrEmoji).length) ∧
    (((analyzeMessageExpr ps e lo hi).filter
        (fun d => d.message == diagSensitive)).length =
      ((extractAllStringLiterals e).filter
        (fun lit => containsSensitiveData lit ps)).length) := by
  unfold analyzeMessageExpr
  rcases hl : extractAllStringLiterals e with _ | ⟨l0, rest⟩
  · simp
  · rw [if_neg (by simp)]
    rw [List.enum_cons]
    rw [List.flatMap_cons]
    refine ⟨?_, ?_, ?_, ?_⟩
    · rw [List.filter_append, frag_filter_case,
        flatMap_filter_case_tail ps lo hi (canRewriteMessageExpr e) rest 1
          (by omega),
        List.append_nil]
      simp
    · rw [List.filter_append, List.length_append, frag_filter_eng,
        flatMap_filter_count ps lo hi (canRewriteMessageExpr e) diagEnglishOnly
          containsNonEnglishLetters
          (fun lit => buildDiagnostic lo hi diagEnglishOnly lit [] false)
          (fun idx lit => frag_filter_eng ps lo hi (canRewriteMessageExpr e) idx lit)
          rest 1,
        List.filter_cons]
      by_cases hp : containsNonEnglishLetters l0 = true <;>
        simp [hp, Nat.add_comm]
    · rw [List.filter_append, List.length_append, frag_filter_spec,
        flatMap_filter_count ps lo hi (canRewriteMessageExpr e) diagNoSpecials
          containsSpecialSymbolsOrEmoji
          (fun lit => buildDiagnostic lo hi diagNoSpecials lit
            (stripSpecialSymbolsAndEmoji lit) (canRewriteMessageExpr e))
          (fun idx lit => frag_filter_spec ps lo hi (canRewriteMessageExpr e) idx lit)
          rest 1,
        List.filter_cons]
      by_cases hp : containsSpecialSymbolsOrEmoji l0 = true <;>
        simp [hp, Nat.add_comm]
    · rw [List.filter_append, List.length_append, frag_filter_sens,
        flatMap_filter_count ps lo hi (canRewriteMessageExpr e) diagSensitive
          (fun lit => containsSensitiveData lit ps)
          (fun lit => buildDiagnostic lo hi diagSensitive lit
            (redactSensitiveData lit ps) (canRewriteMessageExpr e))
          (fun idx lit => frag_filter_sens ps lo hi (canRewriteMessageExpr e) idx lit)
          rest 1,
        List.filter_cons]
      by_cases hp : containsSensitiveData l0 ps = true <;>
        simp [hp, Nat.add_comm]

/-! ### Sensitive-keyword detection (C7) -/

theorem toNat_ofNat_valid (n : Nat) (h : n < 55296) : (Char.ofNat n).toNat = n := by
  have hv : n.isValidChar := Or.inl h
  simp [Char.ofNat, hv, Char.ofNatAux, Char.toNat, UInt32.toNat, BitVec.toNat_ofNatLt]

theorem asciiToLower_eq_outside (c x : Char) (hx : x.toNat < 97 ∨ 122 < x.toNat)
    (h : asciiToLower c = x) : c = x := by
  unfold asciiToLower at h
  split at h
  · rename_i hc
    exfalso
    have hn : (Char.ofNat (c.toNat + 32)).toNat = c.toNat + 32 :=
      toNat_ofNat_valid _ (by omega)
    rw [h] at hn
    omega
  · exact h

theorem searchMatch_cons (p : KeywordPattern) (prev : Option Char) (c : Char)
    (rest : GoStr) :
    searchMatch p prev (c :: rest) =
      ((tryMatchLen p prev (c :: rest)).isSome || searchMatch p (some c) rest) :=
  rfl

theorem ciStartsWith_prefix_mapLower : ∀ (w z : GoStr),
    ciStartsWith (w.map asciiToLower) (w ++ z) = true := by
  intro w
  induction w with
  | nil => intro z; rfl
  | cons c t ih =>
    intro z
    show ciStartsWith (asciiToLower c :: t.map asciiToLower) (c :: (t ++ z)) = true
    unfold ciStartsWith
    rw [ih z]
    simp

theorem keyword_match_single (p : KeywordPattern) (hsep : p.optSep = false)
    (hpost : p.post = []) (w : GoStr) (hw : w.map asciiToLower = p.pre) :
    patternMatches p w = true := by
  have hlen : p.pre.length ≤ w.length := by
    rw [← hw]; simp
  have hci : ciStartsWith p.pre w = true := by
    rw [← hw]
    simpa using ciStartsWith_prefix_mapLower w []
  have hdropnil : w.drop p.pre.length = [] := by
    apply List.drop_eq_nil_of_le
    rw [← hw]; simp
  have hmatch : tryMatchLen p none w = some (p.pre.length + p.post.length) := by
    unfold tryMatchLen
    rw [hsep]
    simp only [boundaryBefore, Bool.not_true, Bool.false_eq_true, if_false,
      hci, Bool.not_false]
    rw [hdropnil]
    unfold noSepMatch
    rw [hpost]
    simp [boundaryAfter, ciStartsWith]
  rcases hwshape : w with _ | ⟨c, rest⟩
  · exfalso
    rw [hwshape] at hw
    simp [KeywordPattern.pre] at hw
  · rw [hwshape] at hmatch
    unfold patternMatches
    rw [searchMatch_cons, hmatch]
    simp

theorem keyword_match_sep (p : KeywordPattern) (hsep : p.optSep = true)
    (w1 : GoStr) (c : Char) (w2 : GoStr) (hw1 : w1.map asciiToLower = p.pre)
    (hc : c = '_' ∨ c = '-') (hw2 : w2.map asciiToLower = p.post) :
    patternMatches p (w1 ++ c :: w2) = true := by
  have hlen1 : w1.length = p.pre.length := by rw [← hw1]; simp
  have hci1 : ciStartsWith p.pre (w1 ++ c :: w2) = true := by
    rw [← hw1]
    exact ciStartsWith_prefix_mapLower w1 (c :: w2)
  have hdrop : (w1 ++ c :: w2).drop p.pre.length = c :: w2 := by
    rw [← hlen1]
    exact List.drop_left _ _
  have hci2 : ciStartsWith p.post w2 = true := by
    rw [← hw2]
    simpa using ciStartsWith_prefix_mapLower w2 []
  have hdrop2 : w2.drop p.post.length = [] := by
    apply List.drop_eq_nil_of_le
    rw [← hw2]; simp
  have hcsep : (c = '_' || c = '-') = true := by
    rcases hc with h | h <;> simp [h]
  have hmatch : tryMatchLen p none (w1 ++ c :: w2) =
      some (p.pre.length + 1 + p.post.length) := by
    unfold tryMatchLen
    rw [hsep]
    simp only [boundaryBefore, Bool.not_true, Bool.false_eq_true, if_false,
      hci1, Bool.not_false]
    rw [hdrop]
    simp only [if_true]
    rw [hcsep, hci2, hdrop2]
    simp [boundaryAfter]
  rcases hw1shape : w1 with _ | ⟨d, t⟩
  · exfalso
    rw [hw1shape] at hw1
    simp [KeywordPattern.pre] at hw1
  · rw [hw1shape] at hmatch
    rw [List.cons_append] at hmatch
    unfold patternMatches
    rw [List.cons_append, searchMatch_cons, hmatch]
    simp

theorem contains_of_keyword_single (kp : KeywordPattern)
    (hmem : kp ∈ defaultCompiledPatterns) (hsep : kp.optSep = false)
    (hpost : kp.post = []) (w : GoStr) (hw : w.map asciiToLower = kp.pre) :
    containsSensitiveData w defaultCompiledPatterns = true := by
  unfold containsSensitiveData
  exact List.any_eq_true.mpr ⟨kp, hmem, keyword_match_single kp hsep hpost w hw⟩

theorem contains_of_keyword_sep (kp : KeywordPattern)
    (hmem : kp ∈ defaultCompiledPatterns) (hsep : kp.optSep = true)
    (w : GoStr)
    (hshape : ∃ w1 c w2, w = w1 ++ c :: w2 ∧ w1.map asciiToLower = kp.pre ∧
      (c = '_' ∨ c = '-') ∧ w2.map asciiToLower = kp.post) :
    containsSensitiveData w defaultCompiledPatterns = true := by
  obtain ⟨w1, c, w2, heq, h1, hc, h2⟩ := hshape
  unfold containsSensitiveData
  refine List.any_eq_true.mpr ⟨kp, hmem, ?_⟩
  rw [heq]
  exact keyword_match_sep kp hsep w1 c w2 h1 hc h2

theorem sep_variant_split (w : GoStr) (pre post : GoStr) (sep : Char)
    (hsepval : sep.toNat < 97) (hw : w.map asciiToLower = pre ++ sep :: post) :
    ∃ w1 c w2, w = w1 ++ c :: w2 ∧ w1.map asciiToLower = pre ∧ c = sep ∧
      w2.map asciiToLower = post := by
  obtain ⟨w1, t, heq, h1, h2⟩ := List.map_eq_append_iff.mp hw
  rcases t with _ | ⟨c, w2⟩
  · exact absurd h2 (by simp)
  · rw [List.map_cons] at h2
    injection h2 with hc hw2
    exact ⟨w1, c, w2, heq, h1, asciiToLower_eq_outside c sep (by omega) hc, hw2⟩

theorem ciStartsWith_length : ∀ (kw s : GoStr),
    ciStartsWith kw s = true → kw.length ≤ s.length := by
  intro kw
  induction kw with
  | nil => intro s _; simp
  | cons k kw' ih =>
    intro s h
    rcases s with _ | ⟨c, s'⟩
    · exact absurd h (by simp [ciStartsWith])
    · have h2 : ciStartsWith kw' s' = true := by
        have hh := h
        unfold ciStartsWith at hh
        simp only [Bool.and_eq_true] at hh
        exact hh.2
      have := ih s' h2
      simp only [List.length_cons]
      omega

theorem noSepMatch_le (p : KeywordPattern) (s1 : GoStr) (n : Nat)
    (h : noSepMatch p s1 = some n) : n ≤ p.pre.length + s1.length := by
  unfold noSepMatch at h
  split at h
  · rename_i hcond
    simp only [Option.some.injEq] at h
    simp only [Bool.and_eq_true] at hcond
    have hpost : p.post.length ≤ s1.length :=
      ciStartsWith_length _ _ hcond.1
    omega
  · exact absurd h (by simp)

theorem tryMatchLen_le (p : KeywordPattern) (prev : Option Char) (s : GoStr)
    (n : Nat) (h : tryMatchLen p prev s = some n) : n ≤ s.length := by
  unfold tryMatchLen at h
  split at h
  · exact absurd h (by simp)
  · split at h
    · exact absurd h (by simp)
    · rename_i hci2
      have hcitrue : ciStartsWith p.pre s = true := by
        rcases hb : ciStartsWith p.pre s with _ | _
        · rw [hb] at hci2
          simp at hci2
        · rfl
      have hpre : p.pre.length ≤ s.length := ciStartsWith_length _ _ hcitrue
      have hdlen : (s.drop p.pre.length).length = s.length - p.pre.length :=
        List.length_drop _ _
      split at h
      · split at h
        · rename_i c s2 hdrop
          split at h
          · rename_i hcond
            simp only [Option.some.injEq] at h
            simp only [Bool.and_eq_true] at hcond
            have hpost : p.post.length ≤ s2.length :=
              ciStartsWith_length _ _ hcond.1.2
            rw [hdrop] at hdlen
            simp only [List.length_cons] at hdlen
            omega
          · have hle := noSepMatch_le p (c :: s2) n h
            rw [hdrop] at hdlen
            simp only [List.length_cons] at hle hdlen
            omega
        · rename_i hdrop
          have hle := noSepMatch_le p [] n h
          simp only [List.length_nil] at hle
          omega
      · have hle := noSepMatch_le p (s.drop p.pre.length) n h
        omega

theorem segmentsFrom_zero (p : KeywordPattern) (prev : Option Char)
    (c : Char) (rest : GoStr) :
    segmentsFrom p 0 prev (c :: rest) = (c :: rest).map Segment.keep := rfl

theorem segmentsFrom_step (p : KeywordPattern) (fuel : Nat)
    (prev : Option Char) (c : Char) (rest : GoStr) :
    segmentsFrom p (fuel + 1) prev (c :: rest) =
      match tryMatchLen p prev (c :: rest) with
      | some n =>
        Segment.matched ((c :: rest).take n) ::
          segmentsFrom p fuel ((c :: rest).take n).getLast? ((c :: rest).drop n)
      | none => Segment.keep c :: segmentsFrom p fuel (some c) rest := rfl

theorem replaceFrom_zero (p : KeywordPattern) (prev : Option Char)
    (c : Char) (rest : GoStr) :
    replaceFrom p 0 prev (c :: rest) = c :: rest := rfl

theorem replaceFrom_step (p : KeywordPattern) (fuel : Nat)
    (prev : Option Char) (c : Char) (rest : GoStr) :
    replaceFrom p (fuel + 1) prev (c :: rest) =
      match tryMatchLen p prev (c :: rest) with
      | some n =>
        sensitiveReplacement ++
          replaceFrom p fuel ((c :: rest).take n).getLast? ((c :: rest).drop n)
      | none => c :: replaceFrom p fuel (some c) rest := rfl

theorem flatMap_segmentText_keep (l : GoStr) :
    (l.map Segment.keep).flatMap segmentText = l := by
  induction l with
  | nil => rfl
  | cons c t ih => simp [segmentText, ih]

theorem flatMap_segmentRender_keep (l : GoStr) :
    (l.map Segment.keep).flatMap segmentRender = l := by
  induction l with
  | nil => rfl
  | cons c t ih => simp [segmentRender, ih]

/-- The decomposition covers the input exactly: unmatched runes and
matched spans concatenate back, in order, to the scanned text. -/
theorem segmentsFrom_covers (p : KeywordPattern) : ∀ (fuel : Nat)
    (prev : Option Char) (s : GoStr),
    (segmentsFrom p fuel prev s).flatMap segmentText = s := by
  intro fuel
  induction fuel with
  | zero =>
    intro prev s
    rcases s with _ | ⟨c, rest⟩
    · rfl
    · rw [segmentsFrom_zero]
      exact flatMap_segmentText_keep _
  | succ n ih =>
    intro prev s
    rcases s with _ | ⟨c, rest⟩
    · rfl
    · rw [segmentsFrom_step]
      rcases h : tryMatchLen p prev (c :: rest) with _ | k

      · simp only [List.flatMap_cons, segmentText, ih]
        rfl
      · simp only [List.flatMap_cons, segmentText, ih]
        exact List.take_append_drop k (c :: rest)

/-- The replacement output renders the decomposition: matched spans
become the redaction token, everything else stays verbatim. -/
theorem replaceFrom_eq_render (p : KeywordPattern) : ∀ (fuel : Nat)
    (prev : Option Char) (s : GoStr),
    replaceFrom p fuel prev s =
      (segmentsFrom p fuel prev s).flatMap segmentRender := by
  intro fuel
  induction fuel with
  | zero =>
    intro prev s
    rcases s with _ | ⟨c, rest⟩
    · rfl
    · rw [segmentsFrom_zero, replaceFrom_zero, flatMap_segmentRender_keep]
  | succ n ih =>
    intro prev s
    rcases s with _ | ⟨c, rest⟩
    · rfl
    · rw [segmentsFrom_step, replaceFrom_step]
      rcases h : tryMatchLen p prev (c :: rest) with _ | k
      · simp only [List.flatMap_cons, segmentRender, ih]
        rfl
      · simp only [List.flatMap_cons, segmentRender, ih]

/-- Every matched segment of the decomposition is a genuine, non-empty
match of the pattern in its boundary context. -/
theorem segmentsFrom_matched_genuine (p : KeywordPattern) : ∀ (fuel : Nat)
    (prev : Option Char) (s : GoStr) (seg : Segment),
    seg ∈ segmentsFrom p fuel prev s → ∀ span, seg = Segment.matched span →
      1 ≤ span.length ∧ ∃ prev2 rest2,
        tryMatchLen p prev2 (span ++ rest2) = some span.length := by
  intro fuel
  induction fuel with
  | zero =>
    intro prev s seg hseg span hspan
    rcases s with _ | ⟨c, rest⟩
    · simp [segmentsFrom] at hseg
    · rw [segmentsFrom_zero] at hseg
      obtain ⟨x, _, hx⟩ := List.mem_map.mp hseg
      rw [hspan] at hx
      exact absurd hx (by simp)
  | succ n ih =>
    intro prev s seg hseg span hspan
    rcases s with _ | ⟨c, rest⟩
    · simp [segmentsFrom] at hseg
    · rw [segmentsFrom_step] at hseg
      rcases h : tryMatchLen p prev (c :: rest) with _ | k
      · rw [h] at hseg
        rcases List.mem_cons.mp hseg with hh | hh
        · rw [hspan] at hh
          exact absurd hh (by simp)
        · exact ih (some c) rest seg hh span hspan
      · rw [h] at hseg
        rcases List.mem_cons.mp hseg with hh | hh
        · rw [hspan] at hh
          injection hh with hspan2
          have hk1 : 1 ≤ k := tryMatchLen_pos p prev (c :: rest) k h
          have hkle : k ≤ (c :: rest).length :=
            tryMatchLen_le p prev (c :: rest) k h
          have hlen : span.length = k := by
            rw [hspan2]
            simp only [List.length_take]
            omega
          have hlen2 : (List.take k (c :: rest)).length = k := by
            simp only [List.length_take]
            omega
          refine ⟨by omega, prev, (c :: rest).drop k, ?_⟩
          rw [hspan2, List.take_append_drop, h, hlen2]
        · exact ih _ _ seg hh span hspan

/-- `redactSensitiveData` renders each pattern's decomposition in turn:
patterns apply in compiled order, each to the text already redacted by the
previous ones. -/
theorem redact_eq_render (patterns : List KeywordPattern) : ∀ s : GoStr,
    redactSensitiveData s patterns =
      patterns.foldl
        (fun acc p => (segmentsFrom p acc.length none acc).flatMap segmentRender)
        s := by
  induction patterns with
  | nil => intro s; rfl
  | cons p ps ih =>
    intro s
    have lhs : redactSensitiveData s (p :: ps) =
        redactSensitiveData (patternReplaceAll p s) ps := rfl
    rw [lhs, ih (patternReplaceAll p s), List.foldl_cons]
    congr 1
    exact replaceFrom_eq_render p s.length none s

/-- C7: for every built-in sensitive keyword family, every ASCII casing of
both the underscore and the hyphen spelling is detected by
`containsSensitiveData` against the compiled built-in patterns; and for
every pattern and every text, the replacement splits the text into
unmatched runes and genuine non-empty matched spans (`segmentsFrom`),
whose concatenation is the original text, replaces exactly the matched
spans with `[redacted]` and keeps all non-matching text unchanged —
`redactSensitiveData` doing so pattern by pattern in compiled order — as
in `"API_KEY=3"` becoming `"[redacted]=3"`. -/
theorem builtin_keywords_detected :
    (∀ w : GoStr, w.map asciiToLower = "password".data →
      containsSensitiveData w defaultCompiledPatterns = true) ∧
    (∀ w : GoStr, w.map asciiToLower = "token".data →
      containsSensitiveData w defaultCompiledPatterns = true) ∧
    (∀ w : GoStr, w.map asciiToLower = "api_key".data →
      containsSensitiveData w defaultCompiledPatterns = true) ∧
    (∀ w : GoStr, w.map asciiToLower = "api-key".data →
      containsSensitiveData w defaultCompiledPatterns = true) ∧
    (∀ w : GoStr, w.map asciiToLower = "secret".data →
      containsSensitiveData w defaultCompiledPatterns = true) ∧
    (∀ w : GoStr, w.map asciiToLower = "authorization".data →
      containsSensitiveData w defaultCompiledPatterns = true) ∧
    (∀ w : GoStr, w.map asciiToLower = "access_key".data →
      containsSensitiveData w defaultCompiledPatterns = true) ∧
    (∀ w : GoStr, w.map asciiToLower = "access-key".data →
      containsSensitiveData w defaultCompiledPatterns = true) ∧
    (∀ (p : KeywordPattern) (s : GoStr),
      (segmentsFrom p s.length none s).flatMap segmentText = s) ∧
    (∀ (p : KeywordPattern) (s : GoStr),
      patternReplaceAll p s =
        (segmentsFrom p s.length none s).flatMap segmentRender) ∧
    (∀ (p : KeywordPattern) (s : GoStr),
      ∀ seg ∈ segmentsFrom p s.length none s,
        ∀ span, seg = Segment.matched span →
          1 ≤ span.length ∧ ∃ prev rest,
            tryMatchLen p prev (span ++ rest) = some span.length) ∧
    (∀ (patterns : List KeywordPattern) (s : GoStr),
      redactSensitiveData s patterns =
        patterns.foldl
          (fun acc p =>
            (segmentsFrom p acc.length none acc).flatMap segmentRender)
          s) ∧
    redactSensitiveData "API_KEY=3".data defaultCompiledPatterns =
      "[redacted]=3".data := by
  refine ⟨?_, ?_, ?_, ?_, ?_, ?_, ?_, ?_,
    fun p s => segmentsFrom_covers p s.length none s,
    fun p s => replaceFrom_eq_render p s.length none s,
    fun p s seg hseg span hspan =>
      segmentsFrom_matched_genuine p s.length none s seg hseg span hspan,
    fun patterns s => redact_eq_render patterns s,
    by decide⟩
  · intro w hw
    exact contains_of_keyword_single ⟨'p', "assword".data, false, []⟩
      (by decide) rfl rfl w hw
  · intro w hw
    exact contains_of_keyword_single ⟨'t', "oken".data, false, []⟩
      (by decide) rfl rfl w hw
  · intro w hw
    exact contains_of_keyword_sep ⟨'a', "pi".data, true, "key".data⟩
      (by decide) rfl w
      (by
        obtain ⟨w1, c, w2, heq, h1, hc, h2⟩ :=
          sep_variant_split w "api".data "key".data '_' (by decide) hw
        exact ⟨w1, c, w2, heq, h1, Or.inl hc, h2⟩)
  · intro w hw
    exact contains_of_keyword_sep ⟨'a', "pi".data, true, "key".data⟩
      (by decide) rfl w
      (by
        obtain ⟨w1, c, w2, heq, h1, hc, h2⟩ :=
          sep_variant_split w "api".data "key".data '-' (by decide) hw
        exact ⟨w1, c, w2, heq, h1, Or.inr hc, h2⟩)
  · intro w hw
    exact contains_of_keyword_single ⟨'s', "ecret".data, false, []⟩
      (by decide) rfl rfl w hw
  · intro w hw
    exact contains_of_keyword_single ⟨'a', "uthorization".data, false, []⟩
      (by decide) rfl rfl w hw
  · intro w hw
    exact contains_of_keyword_sep ⟨'a', "ccess".data, true, "key".data⟩
      (by decide) rfl w
      (by
        obtain ⟨w1, c, w2, heq, h1, hc, h2⟩ :=
          sep_variant_split w "access".data "key".data '_' (by decide) hw
        exact ⟨w1, c, w2, heq, h1, Or.inl hc, h2⟩)
  · intro w hw
    exact contains_of_keyword_sep ⟨'a', "ccess".data, true, "key".data⟩
      (by decide) rfl w
      (by
        obtain ⟨w1, c, w2, heq, h1, hc, h2⟩ :=
          sep_variant_split w "access".data "key".data '-' (by decide) hw
        exact ⟨w1, c, w2, heq, h1, Or.inr hc, h2⟩)

/-- Witness for C7: mixed-case spellings of two families are detected;
the `"API_KEY=3"` scan of the `api[_-]?key` pattern really contains the
matched span `"API_KEY"`, for which the genuine-match conjunct is
exercised. -/
theorem builtin_keywords_detected_witness :
    "PaSsWoRd".data.map asciiToLower = "password".data ∧
    containsSensitiveData "PaSsWoRd".data defaultCompiledPatterns = true ∧
    "Api-KEY".data.map asciiToLower = "api-key".data ∧
    containsSensitiveData "Api-KEY".data defaultCompiledPatterns = true ∧
    Segment.matched "API_KEY".data ∈
      segmentsFrom ⟨'a', "pi".data, true, "key".data⟩ "API_KEY=3".data.length
        none "API_KEY=3".data ∧
    (1 ≤ "API_KEY".data.length ∧ ∃ prev rest,
      tryMatchLen ⟨'a', "pi".data, true, "key".data⟩ prev
        ("API_KEY".data ++ rest) = some "API_KEY".data.length) :=
  ⟨by decide, builtin_keywords_detected.1 "PaSsWoRd".data (by decide),
   by decide, builtin_keywords_detected.2.2.2.1 "Api-KEY".data (by decide),
   by decide,
   builtin_keywords_detected.2.2.2.2.2.2.2.2.2.2.1
     ⟨'a', "pi".data, true, "key".data⟩ "API_KEY=3".data
     (Segment.matched "API_KEY".data) (by decide) "API_KEY".data rfl⟩

/-! ### The punctuation/emoji strip (C8) -/

theorem containsTripleDot_iff (l : GoStr) :
    containsTripleDot l = true ↔
      ∃ a b : GoStr, l = a ++ '.' :: '.' :: '.' :: b := by
  induction l with
  | nil =>
    constructor
    · intro h
      simp [containsTripleDot] at h
    · rintro ⟨a, b, hab⟩
      exact absurd hab (by simp)
  | cons c rest ih =>
    simp only [containsTripleDot, Bool.or_eq_true, Bool.and_eq_true,
      decide_eq_true_eq]
    constructor
    · rintro (⟨hc, htake⟩ | h2)
      · subst hc
        rcases rest with _ | ⟨x, _ | ⟨y, r⟩⟩
        · exact absurd htake (by simp)
        · exact absurd htake (by simp)
        · simp only [List.take_succ_cons, List.take_zero] at htake
          injection htake with hx hrest
          injection hrest with hy _
          subst hx
          subst hy
          exact ⟨[], r, rfl⟩
      · obtain ⟨a, b, hab⟩ := ih.mp h2
        exact ⟨c :: a, b, by rw [hab]; rfl⟩
    · rintro ⟨a, b, hab⟩
      rcases a with _ | ⟨a0, a1⟩
      · rw [List.nil_append] at hab
        injection hab with h1 h2
        subst h1
        subst h2
        exact Or.inl ⟨rfl, by simp⟩
      · rw [List.cons_append] at hab
        injection hab with h1 h2
        exact Or.inr (ih.mpr ⟨a1, b, h2⟩)

theorem containsTripleDot_of_infix (l1 l2 : GoStr) (h : l1 <:+: l2)
    (h2 : containsTripleDot l2 = false) : containsTripleDot l1 = false := by
  by_contra hc
  have h1 : containsTripleDot l1 = true := by
    rcases hx : containsTripleDot l1 with _ | _
    · exact absurd hx hc
    · rfl
  obtain ⟨a, b, hab⟩ := (containsTripleDot_iff l1).mp h1
  obtain ⟨s, t, hst⟩ := h
  have : containsTripleDot l2 = true := by
    apply (containsTripleDot_iff l2).mpr
    refine ⟨s ++ a, b ++ t, ?_⟩
    rw [← hst, hab]
    simp [List.append_assoc]
  rw [this] at h2
  exact absurd h2 (by simp)

theorem replaceTripleDot_cons_ne (c : Char) (rest : GoStr)
    (h : ¬(c = '.' ∧ rest.take 2 = ['.', '.'])) :
    replaceTripleDot (c :: rest) = c :: replaceTripleDot rest := by
  rw [replaceTripleDot.eq_def]
  split
  · rename_i heq
    exact absurd heq (by simp)
  · rename_i rest2 heq
    exfalso
    injection heq with h1 h2
    exact h ⟨h1, by rw [h2]; simp⟩
  · rename_i c2 rest2 _ heq
    injection heq with h1 h2
    rw [h1, h2]

theorem replaceTripleDot_triple (rest : GoStr) :
    replaceTripleDot ('.' :: '.' :: '.' :: rest) = replaceTripleDot rest := rfl

theorem take_two_shape (rest : GoStr) (h : rest.take 2 = ['.', '.']) :
    ∃ rest2, rest = '.' :: '.' :: rest2 := by
  rcases rest with _ | ⟨x, _ | ⟨y, r⟩⟩
  · exact absurd h (by simp)
  · exact absurd h (by simp)
  · simp only [List.take_succ_cons, List.take_zero] at h
    injection h with hx hrest
    injection hrest with hy _
    subst hx
    subst hy
    exact ⟨r, rfl⟩

theorem replaceTripleDot_sublist_aux :
    ∀ (n : Nat) (l : GoStr), l.length ≤ n →
      List.Sublist (replaceTripleDot l) l := by
  intro n
  induction n with
  | zero =>
    intro l hl
    have hnil : l = [] := by
      cases l
      · rfl
      · simp at hl
    subst hnil
    simp [replaceTripleDot]
  | succ n ih =>
    intro l hl
    rcases l with _ | ⟨c, rest⟩
    · simp [replaceTripleDot]
    · by_cases htrip : c = '.' ∧ rest.take 2 = ['.', '.']
      · obtain ⟨hc, htake⟩ := htrip
        obtain ⟨rest2, hrest⟩ := take_two_shape rest htake
        subst hc
        subst hrest
        rw [replaceTripleDot_triple]
        have hsub : List.Sublist (replaceTripleDot rest2) rest2 := by
          apply ih
          simp at hl
          omega
        exact hsub.trans ((List.sublist_cons_self _ _).trans
          ((List.sublist_cons_self _ _).trans (List.sublist_cons_self _ _)))
      · rw [replaceTripleDot_cons_ne c rest htrip]
        apply List.Sublist.cons₂
        apply ih
        simp at hl
        omega

theorem replaceTripleDot_sublist (l : GoStr) :
    List.Sublist (replaceTripleDot l) l :=
  replaceTripleDot_sublist_aux l.length l (le_refl _)

theorem replaceTripleDot_notDD (l : GoStr) (h : l.take 2 ≠ ['.', '.']) :
    (replaceTripleDot l).take 2 ≠ ['.', '.'] := by
  rcases l with _ | ⟨c, rest⟩
  · simp [replaceTripleDot]
  · by_cases hc : c = '.'
    · subst hc
      rcases rest with _ | ⟨d, rest1⟩
      · rw [replaceTripleDot_cons_ne _ _ (by simp)]
        simp [replaceTripleDot]
      · have hd : d ≠ '.' := by
          intro hd
          subst hd
          exact h (by simp)
        rw [replaceTripleDot_cons_ne _ _ (by simp [hd])]
        rw [replaceTripleDot_cons_ne _ _ (by simp [hd])]
        simp [hd]
    · rw [replaceTripleDot_cons_ne _ _ (by simp [hc])]
      simp [hc]

theorem replaceTripleDot_noTriple_aux :
    ∀ (n : Nat) (l : GoStr), l.length ≤ n →
      containsTripleDot (replaceTripleDot l) = false := by
  intro n
  induction n with
  | zero =>
    intro l hl
    have hnil : l = [] := by
      cases l
      · rfl
      · simp at hl
    subst hnil
    simp [replaceTripleDot, containsTripleDot]
  | succ n ih =>
    intro l hl
    rcases l with _ | ⟨c, rest⟩
    · simp [replaceTripleDot, containsTripleDot]
    · by_cases htrip : c = '.' ∧ rest.take 2 = ['.', '.']
      · obtain ⟨hc, htake⟩ := htrip
        obtain ⟨rest2, hrest⟩ := take_two_shape rest htake
        subst hc
        subst hrest
        rw [replaceTripleDot_triple]
        apply ih
        simp at hl
        omega
      · rw [replaceTripleDot_cons_ne c rest htrip]
        have htail : containsTripleDot (replaceTripleDot rest) = false := by
          apply ih
          simp at hl
          omega
        simp only [containsTripleDot, htail, Bool.or_false,
          Bool.and_eq_false_iff]
        by_cases hc : c = '.'
        · subst hc
          have hdd : rest.take 2 ≠ ['.', '.'] := fun hx => htrip ⟨rfl, hx⟩
          right
          simpa using replaceTripleDot_notDD rest hdd
        · left
          simpa using hc

theorem replaceTripleDot_noTriple (l : GoStr) :
    containsTripleDot (replaceTripleDot l) = false :=
  replaceTripleDot_noTriple_aux l.length l (le_refl _)

theorem ctd_append_sep (sep : Char) (hsep : sep ≠ '.') (w rest : GoStr) :
    containsTripleDot (w ++ sep :: rest) =
      (containsTripleDot w || containsTripleDot rest) := by
  apply bool_eq_of_iff
  rw [Bool.or_eq_true, containsTripleDot_iff, containsTripleDot_iff,
    containsTripleDot_iff]
  constructor
  · rintro ⟨a, b, hab⟩
    rcases List.append_eq_append_iff.mp hab with ⟨k, hk, heq⟩ | ⟨k, hk, heq⟩
    · rcases k with _ | ⟨k0, k1⟩
      · rw [List.nil_append] at heq
        injection heq with h1 _
        exact absurd h1 hsep
      · rw [List.cons_append] at heq
        injection heq with h1 h2
        exact Or.inr ⟨k1, b, h2⟩
    · rcases k with _ | ⟨k0, _ | ⟨k1, _ | ⟨k2, k3⟩⟩⟩
      · rw [List.nil_append] at heq
        injection heq with h1 _
        exact absurd h1.symm hsep
      · rw [List.cons_append, List.nil_append] at heq
        injection heq with _ h2
        injection h2 with h3 _
        exact absurd h3.symm hsep
      · rw [List.cons_append, List.cons_append, List.nil_append] at heq
        injection heq with _ h2
        injection h2 with _ h3
        injection h3 with h4 _
        exact absurd h4.symm hsep
      · rw [List.cons_append, List.cons_append, List.cons_append] at heq
        injection heq with h1 h2
        injection h2 with h3 h4
        injection h4 with h5 h6
        refine Or.inl ⟨a, k3, ?_⟩
        rw [hk, ← h1, ← h3, ← h5]
  · rintro (⟨a, b, hab⟩ | ⟨a, b, hab⟩)
    · exact ⟨a, b ++ sep :: rest, by rw [hab]; simp⟩
    · exact ⟨w ++ sep :: a, b, by rw [hab]; simp⟩

theorem goJoinSpace_pair (w w2 : GoStr) (ws : List GoStr) :
    goJoinSpace (w :: w2 :: ws) = w ++ ' ' :: goJoinSpace (w2 :: ws) := rfl

theorem mem_goJoinSpace (ws : List GoStr) (x : Char) (hx : x ∈ goJoinSpace ws) :
    x = ' ' ∨ ∃ w ∈ ws, x ∈ w := by
  induction ws with
  | nil => simp [goJoinSpace] at hx
  | cons w ws' ih =>
    rcases ws' with _ | ⟨w2, ws''⟩
    · rw [show goJoinSpace [w] = w from rfl] at hx
      exact Or.inr ⟨w, by simp, hx⟩
    · rw [goJoinSpace_pair] at hx
      rcases List.mem_append.mp hx with h | h
      · exact Or.inr ⟨w, by simp, h⟩
      · rcases List.mem_cons.mp h with h | h
        · exact Or.inl h
        · rcases ih h with h | ⟨w', hw', hxw'⟩
          · exact Or.inl h
          · exact Or.inr ⟨w', List.mem_cons_of_mem _ hw', hxw'⟩

theorem ctd_goJoinSpace (ws : List GoStr)
    (h : ∀ w ∈ ws, containsTripleDot w = false) :
    containsTripleDot (goJoinSpace ws) = false := by
  induction ws with
  | nil => simp [goJoinSpace, containsTripleDot]
  | cons w ws' ih =>
    rcases ws' with _ | ⟨w2, ws''⟩
    · rw [show goJoinSpace [w] = w from rfl]
      exact h w (by simp)
    · rw [goJoinSpace_pair, ctd_append_sep ' ' (by decide)]
      rw [h w (by simp), ih (fun w' hw' => h w' (List.mem_cons_of_mem _ hw'))]
      rfl

theorem goFields_step (fuel : Nat) (c : Char) (rest : GoStr) :
    goFields (fuel + 1) (c :: rest) =
      if goIsSpace c then goFields fuel rest
      else (c :: rest.takeWhile (fun x => !goIsSpace x)) ::
        goFields fuel (rest.dropWhile (fun x => !goIsSpace x)) := rfl

theorem goFields_word_within : ∀ (fuel : Nat) (l : GoStr),
    ∀ w ∈ goFields fuel l, List.IsInfix w l := by
  intro fuel
  induction fuel with
  | zero =>
    intro l w hw
    rcases l with _ | ⟨c, rest⟩ <;> simp [goFields] at hw
  | succ n ih =>
    intro l w hw
    rcases l with _ | ⟨c, rest⟩
    · simp [goFields] at hw
    · rw [goFields_step] at hw
      by_cases hsp : goIsSpace c
      · rw [if_pos hsp] at hw
        exact List.infix_cons (ih rest w hw)
      · rw [if_neg hsp] at hw
        rcases List.mem_cons.mp hw with h | h
        · subst h
          obtain ⟨t, htw⟩ := List.takeWhile_prefix (l := rest)
            (fun x => !goIsSpace x)
          exact List.IsPrefix.isInfix ⟨t, by rw [List.cons_append, htw]⟩
        · exact List.infix_cons
            ((ih _ w h).trans (List.dropWhile_suffix _).isInfix)

theorem goTrimSpace_within (l : GoStr) : List.IsInfix (goTrimSpace l) l :=
  (List.rdropWhile_prefix _ _).isInfix.trans (List.dropWhile_suffix _).isInfix

theorem strip_output_clean (l : GoStr) :
    ∀ x ∈ stripSpecialSymbolsAndEmoji l,
      (isForbiddenPunctuation x || isEmojiRune x) = false := by
  intro x hx
  simp only [stripSpecialSymbolsAndEmoji] at hx
  rcases mem_goJoinSpace _ x hx with h | ⟨w, hw, hxw⟩
  · subst h
    decide
  · have hx2 := (goFields_word_within _ _ w hw).sublist.subset hxw
    have hx3 := (goTrimSpace_within _).sublist.subset hx2
    have := (List.mem_filter.mp hx3).2
    simpa using this

/-- C8: stripping punctuation/emoji twice leaves no matched characters —
the double strip is a fixed point of the strip transform — while a single
strip need not be, as removing a `!` between dots can create a new `...`
run (`".!.."` strips once to `"..."`). -/
theorem strip_twice_removes_all :
    (∀ s : GoStr, containsSpecialSymbolsOrEmoji
      (stripSpecialSymbolsAndEmoji (stripSpecialSymbolsAndEmoji s)) = false) ∧
    stripSpecialSymbolsAndEmoji ".!..".data = "...".data ∧
    containsSpecialSymbolsOrEmoji (stripSpecialSymbolsAndEmoji ".!..".data) =
      true := by
  refine ⟨?_, by decide, by decide⟩
  intro s
  set r1 := stripSpecialSymbolsAndEmoji s with hr1
  have hclean : ∀ x ∈ r1, (isForbiddenPunctuation x || isEmojiRune x) = false :=
    strip_output_clean s
  have hfid : (replaceTripleDot r1).filter
      (fun r => !(isForbiddenPunctuation r || isEmojiRune r)) =
      replaceTripleDot r1 := by
    apply List.filter_eq_self.mpr
    intro a ha
    have haa : a ∈ r1 := (replaceTripleDot_sublist r1).subset ha
    simp [hclean a haa]
  have hs2 : stripSpecialSymbolsAndEmoji r1 =
      goJoinSpace (goFields (goTrimSpace (replaceTripleDot r1)).length
        (goTrimSpace (replaceTripleDot r1))) := by
    simp only [stripSpecialSymbolsAndEmoji, hfid]
  rw [hs2]
  have hnt : containsTripleDot (goTrimSpace (replaceTripleDot r1)) = false :=
    containsTripleDot_of_infix _ _ (goTrimSpace_within _)
      (replaceTripleDot_noTriple r1)
  have hjoinNT : containsTripleDot
      (goJoinSpace (goFields (goTrimSpace (replaceTripleDot r1)).length
        (goTrimSpace (replaceTripleDot r1)))) = false :=
    ctd_goJoinSpace _ (fun w hw =>
      containsTripleDot_of_infix _ _ (goFields_word_within _ _ w hw) hnt)
  unfold containsSpecialSymbolsOrEmoji
  rw [hjoinNT]
  simp only [Bool.false_or]
  rw [List.any_eq_false]
  intro x hx
  rcases mem_goJoinSpace _ x hx with h | ⟨w, hw, hxw⟩
  · subst h
    decide
  · have hx2 := (goFields_word_within _ _ w hw).sublist.subset hxw
    have hx3 := (goTrimSpace_within _).sublist.subset hx2
    have hx4 : x ∈ r1 := (replaceTripleDot_sublist r1).subset hx3
    simpa using hclean x hx4

end LogMsgLint
